import Mathlib

/-!  A shallow embedding of the dual-tree kernel density estimation
implementation in `fastlib/u/dongryel/kde/kde.h`, with proofs of
functional-correctness and invariant properties of the traversal.

Modelling conventions:
* machine doubles are modelled as rationals;
* the two datasets are index-to-point functions over an abstract point
  type `P`;
* the external capabilities (bounding-box geometry and the series
  expansion machinery, which live outside the analysed translation unit)
  are explicit function parameters collected in `Env`;
* the in-place mutation of per-node statistics is modelled by
  state-passing: the traversal consumes and returns the query tree and
  the array of per-point results;
* ghost fields (`pruned_refs`, `exact_refs`, and the expansion-content
  lists) record which reference points each update accounts for; they
  have no counterpart in the C++ state but are needed to state the
  accounting and soundness invariants.  All non-ghost fields follow the
  source line by line;
* the unbounded C++ recursion is driven by an explicit fuel parameter;
  all theorems about the recursion assume enough fuel for the tree
  heights at hand, which mirrors the always-terminating C++ recursion.
-/

namespace Kde

/-- Interval of rationals, modelling fastlib's `DRange` (a `lo`/`hi`
pair of doubles). -/
structure DRange where
  lo : ℚ
  hi : ℚ
deriving DecidableEq, Repr

namespace DRange

/-- `DRange::operator+=(const DRange&)`: componentwise interval sum. -/
instance : Add DRange := ⟨fun a b => ⟨a.lo + b.lo, a.hi + b.hi⟩⟩

/-- The all-zero interval, `DRange::Init(0, 0)`. -/
instance : Zero DRange := ⟨⟨0, 0⟩⟩

/-- `DRange::width()`. -/
def width (r : DRange) : ℚ := r.hi - r.lo

/-- `DRange::operator*=(index_t)`: scaling by a point count. -/
def scale (r : DRange) (n : ℕ) : DRange := ⟨r.lo * n, r.hi * n⟩

/-- `DRange::operator+=(double)`: shifting both ends by a scalar. -/
def addScalar (r : DRange) (v : ℚ) : DRange := ⟨r.lo + v, r.hi + v⟩

/-- `DRange::operator*=(double)`: scaling both ends by a scalar
(used with the nonnegative normalization constant). -/
def mulScalar (r : DRange) (c : ℚ) : DRange := ⟨r.lo * c, r.hi * c⟩

/-- `DRange::operator|=`: interval join (used by summary refinement). -/
def join (a b : DRange) : DRange := ⟨min a.lo b.lo, max a.hi b.hi⟩

end DRange

/-- `v` lies in the interval `r`. -/
def memR (v : ℚ) (r : DRange) : Prop := r.lo ≤ v ∧ v ≤ r.hi

instance (v : ℚ) (r : DRange) : Decidable (memR v r) := by
  unfold memR; infer_instance

/-- One accumulation event of a farfield expansion.  Modelled from the
spec: the farfield/local expansion machinery (the
`series_expansion` headers) is not part of the analysed unit, so an
expansion is represented by the list of accumulation events it received:
`RefineCoeffs(data, weights, begin, end, order)` contributes one event
per owned point, recording the point, its weight and the order. -/
structure FFAcc (P : Type) where
  pt : P
  weight : ℚ
  order : ℕ
deriving DecidableEq, Repr

/-- One accumulation event of a local expansion.  Modelled from the
spec: `TranslateToLocal` from a farfield expansion records the source
coefficients and the order; `AccumulateCoeffs` records the accumulated
reference index range and order; a parent-to-child `TranslateToLocal`
(post-processing push-down) appends the parent's events to the child's. -/
inductive LocAcc (P : Type) where
  | fromFF (src : List (FFAcc P)) (order : ℤ)
  | fromPoints (pts : List ℕ) (order : ℤ)
deriving DecidableEq, Repr

/-- `QPostponed`: contributions computed for a whole query node but not
yet pushed to the individual query points.  `pruned_refs` is a ghost
field listing the reference indices whose contribution the ledger
accounts for (exclusion, finite-difference and series prunes). -/
structure QPostponed where
  d_density_range : DRange
  finite_diff_range : DRange
  used_error : ℚ
  n_pruned : ℕ
  pruned_refs : List ℕ
deriving DecidableEq, Repr

namespace QPostponed

/-- `QPostponed::Init` / `QPostponed::Reset`: everything zeroed. -/
def Reset : QPostponed := ⟨0, 0, 0, 0, []⟩

/-- `QPostponed::ApplyPostponed`: fold in a ledger passed down from an
ancestor node. -/
def ApplyPostponed (p other : QPostponed) : QPostponed :=
  { d_density_range := p.d_density_range + other.d_density_range
    finite_diff_range := p.finite_diff_range + other.finite_diff_range
    used_error := p.used_error + other.used_error
    n_pruned := p.n_pruned + other.n_pruned
    pruned_refs := p.pruned_refs ++ other.pruned_refs }

end QPostponed

/-- `QResult`: the per-query-point result.  `pruned_refs` and
`exact_refs` are ghost fields listing the reference indices accounted
for by pruning respectively by exhaustive summation. -/
structure QResult where
  density_range : DRange
  density_estimate : ℚ
  used_error : ℚ
  n_pruned : ℕ
  pruned_refs : List ℕ
  exact_refs : List ℕ
deriving DecidableEq, Repr

namespace QResult

/-- `QResult::Init`: everything zeroed. -/
def Init : QResult := ⟨0, 0, 0, 0, [], []⟩

/-- `QResult::ApplyPostponed`: apply a leftover node ledger to this
point; the midpoint of the finite-difference accumulator feeds the
point estimate. -/
def ApplyPostponed (r : QResult) (p : QPostponed) : QResult :=
  { r with
    density_range := r.density_range + p.d_density_range
    density_estimate := r.density_estimate +
      (1 / 2) * (p.finite_diff_range.lo + p.finite_diff_range.hi)
    used_error := r.used_error + p.used_error
    n_pruned := r.n_pruned + p.n_pruned
    pruned_refs := r.pruned_refs ++ p.pruned_refs }

/-- `QResult::Postprocess`: normalize by the global constant. -/
def Postprocess (r : QResult) (mul_constant : ℚ) : QResult :=
  { r with
    density_range := r.density_range.mulScalar mul_constant
    density_estimate := r.density_estimate * mul_constant }

end QResult

/-- `QSummaryResult`: aggregate bound over the query results beneath a
node. -/
structure QSummaryResult where
  density_range : DRange
  used_error : ℚ
  n_pruned : ℕ
deriving DecidableEq, Repr

/-- `Delta`: transient per-call bound on a query/reference node pair. -/
structure Delta where
  dsqd_range : DRange
  d_density_range : DRange
deriving DecidableEq, Repr

namespace Delta

/-- `Delta::Init`: zeroed. -/
def Init : Delta := ⟨0, 0⟩

end Delta

namespace QSummaryResult

/-- `QSummaryResult::Init`: everything zeroed. -/
def Init : QSummaryResult := ⟨0, 0, 0⟩

/-- `QSummaryResult::StartReaccumulate`: reset to the empty-interval
sentinel (`DBL_MAX`/`-DBL_MAX`, modelled by a parameter `dblMax`), zero
used error, and the full reference count as the pruned-count lower
bound. -/
def StartReaccumulate (dblMax : ℚ) (reference_count : ℕ) : QSummaryResult :=
  ⟨⟨dblMax, -dblMax⟩, 0, reference_count⟩

/-- `QSummaryResult::Accumulate(param, result)`: refine by one query
point's result. -/
def AccumulateResult (s : QSummaryResult) (r : QResult) : QSummaryResult :=
  { density_range := s.density_range.join r.density_range
    used_error := max s.used_error r.used_error
    n_pruned := min s.n_pruned r.n_pruned }

/-- `QSummaryResult::Accumulate(param, summary, n_points)`: refine by a
child's summary (the point count argument is unused in the source). -/
def AccumulateSummary (s other : QSummaryResult) : QSummaryResult :=
  { density_range := s.density_range.join other.density_range
    used_error := s.used_error + other.used_error
    n_pruned := min s.n_pruned other.n_pruned }

/-- `QSummaryResult::ApplySummaryResult`: horizontal join with the
summary of the unvisited reference portion. -/
def ApplySummaryResult (s other : QSummaryResult) : QSummaryResult :=
  { density_range := s.density_range + other.density_range
    used_error := s.used_error + other.used_error
    n_pruned := s.n_pruned + other.n_pruned }

/-- `QSummaryResult::ApplyDelta`. -/
def ApplyDelta (s : QSummaryResult) (delta : Delta) : QSummaryResult :=
  { s with density_range := s.density_range + delta.d_density_range }

/-- `QSummaryResult::ApplyPostponed`. -/
def ApplyPostponed (s : QSummaryResult) (p : QPostponed) : QSummaryResult :=
  { density_range := s.density_range + p.d_density_range
    used_error := s.used_error + p.used_error
    n_pruned := s.n_pruned + p.n_pruned }

end QSummaryResult

/-- `KdeStat`: the per-node state attached to every tree node. -/
structure KdeStat (P : Type) where
  summary_result : QSummaryResult
  postponed : QPostponed
  farfield_expansion : List (FFAcc P)
  local_expansion : List (LocAcc P)
deriving DecidableEq, Repr

/-- The `BinarySpaceTree` with `KdeStat` statistics.  A node owns the
points of its two children (contiguous index ranges in the source,
lists of dataset indices here). -/
inductive KTree (P : Type) where
  | leaf (pts : List ℕ) (stat : KdeStat P)
  | node (stat : KdeStat P) (l r : KTree P)
deriving DecidableEq, Repr

namespace KTree

variable {P : Type}

/-- The dataset indices owned by a node (`begin()`..`end()`). -/
def pts : KTree P → List ℕ
  | .leaf ps _ => ps
  | .node _ l r => l.pts ++ r.pts

/-- `count()`: number of owned points. -/
def count (t : KTree P) : ℕ := t.pts.length

/-- `is_leaf()`. -/
def isLeaf : KTree P → Bool
  | .leaf _ _ => true
  | .node _ _ _ => false

/-- `stat()` of the node itself. -/
def stat : KTree P → KdeStat P
  | .leaf _ s => s
  | .node s _ _ => s

/-- Replace the node's own statistics (in-place mutation of
`node->stat()` in the source). -/
def updStat (t : KTree P) (f : KdeStat P → KdeStat P) : KTree P :=
  match t with
  | .leaf ps s => .leaf ps (f s)
  | .node s l r => .node (f s) l r

/-- `left()` (undefined on leaves in the source; only used on internal
nodes). -/
def left : KTree P → KTree P
  | .leaf ps s => .leaf ps s
  | .node _ l _ => l

/-- `right()`. -/
def right : KTree P → KTree P
  | .leaf ps s => .leaf ps s
  | .node _ _ r => r

/-- Height of the tree; drives the fuel bound. -/
def height : KTree P → ℕ
  | .leaf _ _ => 0
  | .node _ l r => 1 + max l.height r.height

/-- All subtrees (used to state the geometry hypothesis). -/
def subtrees : KTree P → List (KTree P)
  | .leaf ps s => [.leaf ps s]
  | .node s l r => .node s l r :: (l.subtrees ++ r.subtrees)

/-- The point lists of all subtrees. -/
def subtreePts (t : KTree P) : List (List ℕ) := t.subtrees.map pts

end KTree

/-- The array of per-point query results (`q_results_`), as a total map
from query index to result. -/
def Results : Type := ℕ → QResult

/-- Pointwise update of the result array. -/
def upd (res : Results) (i : ℕ) (r : QResult) : Results :=
  fun j => if j = i then r else res j

/-- The whole environment of one KDE computation: global parameters
(`Param`), the two datasets, the kernel, and the external capabilities
(bound geometry and series expansions) that live outside the analysed
translation unit.

Modelled from the spec where the capability is external:
* `dRange qpts rpts` is `qnode->bound().RangeDistanceSq(rnode->bound())`,
  keyed by the owned point lists of the two nodes;
* `minToMidSq rpts qpts` is `rnode->bound().MinToMidSq(qnode->bound())`;
* `kerRange` is realized by `rangeUnnormOnSq` below;
* `orderF2L`, `orderFF`, `orderLoc` are the `OrderFor...` queries of the
  expansion objects: inputs are the two bounds (as point lists), the
  squared distance range and the allowed error; outputs the chosen order
  (negative = infeasible) and the actual error achieved;
* `evalFF ff q ord` is `farfield_expansion_.EvaluateField(qset_, q, ord)`;
* `evalLocal le q` is `local_expansion_.EvaluateField(qset_, q)`. -/
structure Env (P : Type) where
  dimension : ℕ
  query_count : ℕ
  reference_count : ℕ
  relative_error : ℚ
  mul_constant : ℚ
  maxOrder : ℕ
  dblMax : ℚ
  ker : ℚ → ℚ
  dsq : P → P → ℚ
  qpt : ℕ → P
  rpt : ℕ → P
  rweight : ℕ → ℚ
  dRange : List ℕ → List ℕ → DRange
  minToMidSq : List ℕ → List ℕ → ℚ
  orderF2L : List ℕ → List ℕ → ℚ → ℚ → ℚ → ℤ × ℚ
  orderFF : List ℕ → List ℕ → ℚ → ℚ → ℚ → ℤ × ℚ
  orderLoc : List ℕ → List ℕ → ℚ → ℚ → ℚ → ℤ × ℚ
  evalFF : List (FFAcc P) → ℕ → ℤ → ℚ
  evalLocal : List (LocAcc P) → ℕ → ℚ

/-- Modelled from the spec: `kernel_.RangeUnnormOnSq(dsqd_range)`, the
kernel's value range over a squared-distance range.  For the assumed
non-negative, non-increasing kernels this is
`[ker(dsqd.hi), ker(dsqd.lo)]`. -/
def rangeUnnormOnSq (ker : ℚ → ℚ) (dsqd : DRange) : DRange :=
  ⟨ker dsqd.hi, ker dsqd.lo⟩

variable {P : Type}

/-- `INT_MAX`, the sentinel cost of an infeasible expansion strategy. -/
def intMax : ℤ := 2 ^ 31 - 1

/-- The `allocated_error` expression of `ExtrinsicPrunable` (kde.h
lines 677-680): error allowed for the whole reference node. -/
def allocatedError (env : Env P) (rcount : ℕ) (mu : QSummaryResult) : ℚ :=
  (env.relative_error * mu.density_range.lo - mu.used_error) * rcount /
    ((env.reference_count : ℚ) - (mu.n_pruned : ℚ))

/-- The `allowed_err` expression of
`ExtrinsicPrunableSeriesExpansion` (kde.h lines 593-596): error allowed
per reference point. -/
def allowedErr (env : Env P) (mu : QSummaryResult) : ℚ :=
  (env.relative_error * mu.density_range.lo - mu.used_error) /
    ((env.reference_count : ℚ) - (mu.n_pruned : ℚ))

/-- `IntrinsicPrunable` (kde.h lines 544-564): compute the pair's
distance and density bounds; if the largest achievable kernel value is
exactly zero, account the whole reference node on the query node's
postponed ledger (exclusion pruning) and stop.  Returns the pruning
verdict, the (possibly updated) query node and the computed `Delta`. -/
def IntrinsicPrunable (env : Env P) (qnode rnode : KTree P) :
    Bool × KTree P × Delta :=
  let dsqd := env.dRange qnode.pts rnode.pts
  let dd := (rangeUnnormOnSq env.ker dsqd).scale rnode.count
  let delta : Delta := ⟨dsqd, dd⟩
  if dd.hi ≠ 0 then (false, qnode, delta)
  else
    (true,
      qnode.updStat (fun s =>
        { s with postponed :=
          { s.postponed with
            n_pruned := s.postponed.n_pruned + rnode.count
            pruned_refs := s.postponed.pruned_refs ++ rnode.pts } }),
      delta)

/-- Ghost helper for the farfield-evaluation strategy: add the farfield
evaluation to the estimate of every query point of the node (kde.h
lines 648-652). -/
def addFFEval (env : Env P) (ff : List (FFAcc P)) (ord : ℤ) :
    List ℕ → Results → Results
  | [], res => res
  | q :: qs, res =>
      addFFEval env ff ord qs
        (upd res q
          { res q with
            density_estimate := (res q).density_estimate + env.evalFF ff q ord })

/-- `ExtrinsicPrunableSeriesExpansion` (kde.h lines 570-671): query the
three expansion strategies for feasible orders, estimate their costs,
and apply the cheapest one if it beats exhaustive evaluation.  `none`
means no strategy was applied (forces descent). -/
def ExtrinsicPrunableSeriesExpansion (env : Env P) (qnode rnode : KTree P)
    (delta : Delta) (mu : QSummaryResult) (res : Results) :
    Option (KTree P × Results) :=
  let cost_exhaustive : ℤ := qnode.count * rnode.count * env.dimension
  let allowed_err := allowedErr env mu
  let f2l := env.orderF2L rnode.pts qnode.pts
    delta.dsqd_range.lo delta.dsqd_range.hi allowed_err
  let ff := env.orderFF rnode.pts qnode.pts
    delta.dsqd_range.lo delta.dsqd_range.hi allowed_err
  let lc := env.orderLoc rnode.pts qnode.pts
    delta.dsqd_range.lo delta.dsqd_range.hi allowed_err
  let cost_farfield_to_local : ℤ :=
    if 0 ≤ f2l.1 then (f2l.1 + 1) ^ (2 * env.dimension) else intMax
  let cost_farfield : ℤ :=
    if 0 ≤ ff.1 then (ff.1 + 1) ^ env.dimension * qnode.count else intMax
  let cost_local : ℤ :=
    if 0 ≤ lc.1 then (lc.1 + 1) ^ env.dimension * rnode.count else intMax
  let min_cost :=
    min cost_farfield_to_local (min cost_farfield (min cost_local cost_exhaustive))
  if cost_farfield_to_local = min_cost then
    some
      (qnode.updStat (fun s =>
        { s with
          postponed :=
            { s.postponed with
              d_density_range := s.postponed.d_density_range + delta.d_density_range
              used_error := s.postponed.used_error + rnode.count * f2l.2
              n_pruned := s.postponed.n_pruned + rnode.count
              pruned_refs := s.postponed.pruned_refs ++ rnode.pts }
          local_expansion := s.local_expansion ++
            [LocAcc.fromFF rnode.stat.farfield_expansion f2l.1] }),
      res)
  else if cost_farfield = min_cost then
    some
      (qnode.updStat (fun s =>
        { s with
          postponed :=
            { s.postponed with
              d_density_range := s.postponed.d_density_range + delta.d_density_range
              used_error := s.postponed.used_error + rnode.count * ff.2
              n_pruned := s.postponed.n_pruned + rnode.count
              pruned_refs := s.postponed.pruned_refs ++ rnode.pts } }),
      addFFEval env rnode.stat.farfield_expansion ff.1 qnode.pts res)
  else if cost_local = min_cost then
    some
      (qnode.updStat (fun s =>
        { s with
          postponed :=
            { s.postponed with
              d_density_range := s.postponed.d_density_range + delta.d_density_range
              used_error := s.postponed.used_error + rnode.count * lc.2
              n_pruned := s.postponed.n_pruned + rnode.count
              pruned_refs := s.postponed.pruned_refs ++ rnode.pts }
          local_expansion := s.local_expansion ++
            [LocAcc.fromPoints rnode.pts lc.1] }),
      res)
  else none

/-- `ExtrinsicPrunable` (kde.h lines 674-697): finite-difference
pruning first, series expansion as fallback. -/
def ExtrinsicPrunable (env : Env P) (qnode rnode : KTree P) (delta : Delta)
    (mu : QSummaryResult) (res : Results) : Option (KTree P × Results) :=
  if delta.d_density_range.width / 2 ≤ allocatedError env rnode.count mu then
    some
      (qnode.updStat (fun s =>
        { s with postponed :=
          { d_density_range := s.postponed.d_density_range + delta.d_density_range
            finite_diff_range := s.postponed.finite_diff_range + delta.d_density_range
            used_error := s.postponed.used_error + delta.d_density_range.width / 2
            n_pruned := s.postponed.n_pruned + rnode.count
            pruned_refs := s.postponed.pruned_refs ++ rnode.pts } }),
      res)
  else ExtrinsicPrunableSeriesExpansion env qnode rnode delta mu res

/-- `Heuristic` (kde.h lines 699-701):
`rnode->bound().MinToMidSq(qnode->bound())`. -/
def Heuristic (env : Env P) (qnode rnode : KTree P) : ℚ :=
  env.minToMidSq rnode.pts qnode.pts

/-- Inner loop of `FKdeBase`: exhaustively add the kernel value of each
reference point to one query result; kernel values feed both the bound
interval and the point estimate. -/
def baseInner (env : Env P) (q : ℕ) : List ℕ → QResult → QResult
  | [], rq => rq
  | r :: rs, rq =>
      let dsqd := env.dsq (env.qpt q) (env.rpt r)
      let ker_value := env.ker dsqd
      baseInner env q rs
        { rq with
          density_range := rq.density_range.addScalar ker_value
          density_estimate := rq.density_estimate + ker_value
          exact_refs := rq.exact_refs ++ [r] }

/-- Outer loop of `FKdeBase`: for each query point apply the node's
postponed ledger, run the exhaustive inner loop, and reaccumulate the
node's summary. -/
def baseOuter (env : Env P) (post : QPostponed) (rpts : List ℕ) :
    List ℕ → Results → QSummaryResult → Results × QSummaryResult
  | [], res, summ => (res, summ)
  | q :: qs, res, summ =>
      let rq := (res q).ApplyPostponed post
      let rq := baseInner env q rpts rq
      baseOuter env post rpts qs (upd res q rq) (summ.AccumulateResult rq)

/-- `FKdeBase` (kde.h lines 499-535): exhaustive leaf/leaf case. -/
def FKdeBase (env : Env P) (qnode rnode : KTree P) (res : Results) :
    KTree P × Results :=
  let summ0 := QSummaryResult.StartReaccumulate env.dblMax env.reference_count
  let out := baseOuter env qnode.stat.postponed rnode.pts qnode.pts res summ0
  (qnode.updStat (fun s =>
    { s with summary_result := out.2, postponed := QPostponed.Reset }),
   out.1)

/-- The type of the recursive continuation of `FKde` at one less fuel. -/
def FKdeRec (P : Type) : Type :=
  KTree P → KTree P → Delta → QSummaryResult → Results → KTree P × Results

/-- One child phase of the query-side split (kde.h lines 733-740 and
749-756): push the parent's postponed ledger onto the child, test
exclusion pruning of the child against the reference node, and recurse
when not excluded. -/
def childPhase (env : Env P) (fkdeRec : FKdeRec P) (parent_post : QPostponed)
    (child rnode : KTree P) (unvisited : QSummaryResult) (res : Results) :
    KTree P × Results :=
  let c1 := child.updStat (fun cs =>
    { cs with postponed := cs.postponed.ApplyPostponed parent_post })
  let ip := IntrinsicPrunable env c1 rnode
  if ip.1 then (ip.2.1, res) else fkdeRec ip.2.1 rnode ip.2.2 unvisited res

/-- The query-side split of `FKde` (kde.h lines 728-769): push the
parent ledger onto both children, test exclusion pruning per child,
recurse into non-excluded children, and reaccumulate the parent
summary.  `fkdeRec` is the recursive `FKde` call. -/
def FKdeQuerySplit (env : Env P) (fkdeRec : FKdeRec P) :
    KTree P → KTree P → Delta → QSummaryResult → Results →
    KTree P × Results
  | .leaf ps s, _, _, _, res => (.leaf ps s, res)
  | .node s l r, rnode, _delta, unvisited, res =>
    let summ := QSummaryResult.StartReaccumulate env.dblMax env.reference_count
    let lr := childPhase env fkdeRec s.postponed l rnode unvisited res
    let tmp := lr.1.stat.summary_result.ApplyPostponed lr.1.stat.postponed
    let summ := summ.AccumulateSummary tmp
    let rr := childPhase env fkdeRec s.postponed r rnode unvisited lr.2
    let tmp2 := rr.1.stat.summary_result.ApplyPostponed rr.1.stat.postponed
    let summ := summ.AccumulateSummary tmp2
    (.node { s with summary_result := summ, postponed := QPostponed.Reset }
      lr.1 rr.1,
     rr.2)

/-- The reference-side split of `FKde` (kde.h lines 772-810): test
exclusion pruning on both reference children; recurse into the
non-excluded ones, nearest (by `Heuristic`) first, giving the farther
child's recursion the tightened unvisited summary. -/
def FKdeRefSplit (env : Env P) (fkdeRec : FKdeRec P) :
    KTree P → KTree P → Delta → QSummaryResult → Results →
    KTree P × Results
  | qnode, .leaf _ _, _, _, res => (qnode, res)
  | qnode, .node _ rl rr, _, unvisited, res =>
    let ip1 := IntrinsicPrunable env qnode rl
    let ip2 := IntrinsicPrunable env ip1.2.1 rr
    let qnode := ip2.2.1
    let delta1 := ip1.2.2
    let delta2 := ip2.2.2
    if ip1.1 then
      if ip2.1 then (qnode, res)
      else fkdeRec qnode rr delta2 unvisited res
    else if ip2.1 then fkdeRec qnode rl delta1 unvisited res
    else
      let heur1 := Heuristic env qnode rl
      let heur2 := Heuristic env qnode rr
      if ¬(heur1 > heur2) then
        let unvisited_for_r1 := unvisited.ApplyDelta delta2
        let out := fkdeRec qnode rl delta1 unvisited_for_r1 res
        fkdeRec out.1 rr delta2 unvisited out.2
      else
        let unvisited_for_r2 := unvisited.ApplyDelta delta1
        let out := fkdeRec qnode rr delta2 unvisited_for_r2 res
        fkdeRec out.1 rl delta1 unvisited out.2

/-- The combined bound `mu` built at the head of `FKde` (kde.h lines
708-711): the query node's summary, its postponed ledger, the
caller-supplied unvisited summary, and the current pair's delta. -/
def muOf (qnode : KTree P) (delta : Delta) (unvisited : QSummaryResult) :
    QSummaryResult :=
  ((qnode.stat.summary_result.ApplyPostponed
    qnode.stat.postponed).ApplySummaryResult unvisited).ApplyDelta delta

/-- `FKde` (kde.h lines 704-812): the canonical dual-tree recursion,
driven by an explicit fuel parameter (the source recursion always
terminates; all theorems assume enough fuel for the tree heights). -/
def FKde (env : Env P) :
    ℕ → KTree P → KTree P → Delta → QSummaryResult → Results →
    KTree P × Results
  | 0, qnode, _, _, _, res => (qnode, res)
  | fuel + 1, qnode, rnode, delta, unvisited, res =>
    match ExtrinsicPrunable env qnode rnode delta (muOf qnode delta unvisited) res with
    | some out => out
    | none =>
      if qnode.isLeaf && rnode.isLeaf then FKdeBase env qnode rnode res
      else if rnode.isLeaf || (rnode.count ≤ qnode.count && !qnode.isLeaf) then
        FKdeQuerySplit env (FKde env fuel) qnode rnode delta unvisited res
      else
        FKdeRefSplit env (FKde env fuel) qnode rnode delta unvisited res

/-- `PreProcess` (kde.h lines 819-850): bottom-up expansion building.
Expansions and the summary/postponed ledgers are re-initialized at
every node; leaves accumulate farfield coefficients from the
*reference* dataset and weights at the node's own index range (the
source always passes `rset_`/`rset_weights_`, even for the query
tree); internal nodes merge both children's farfield expansions. -/
def PreProcess (env : Env P) : KTree P → KTree P
  | .leaf ps _ =>
      .leaf ps
        { summary_result := QSummaryResult.Init
          postponed := QPostponed.Reset
          farfield_expansion := ps.map (fun i => ⟨env.rpt i, env.rweight i, env.maxOrder⟩)
          local_expansion := [] }
  | .node _ l r =>
      let l := PreProcess env l
      let r := PreProcess env r
      .node
        { summary_result := QSummaryResult.Init
          postponed := QPostponed.Reset
          farfield_expansion :=
            l.stat.farfield_expansion ++ r.stat.farfield_expansion
          local_expansion := [] } l r

/-- Leaf loop of `PostProcess`: apply the pushed-down ledger, add the
local expansion's evaluation, and normalize. -/
def postLoop (env : Env P) (s : KdeStat P) : List ℕ → Results → Results
  | [], res => res
  | q :: qs, res =>
      let rq := (res q).ApplyPostponed s.postponed
      let rq := { rq with density_estimate :=
        rq.density_estimate + env.evalLocal s.local_expansion q }
      let rq := rq.Postprocess env.mul_constant
      postLoop env s qs (upd res q rq)

/-- Worker of `PostProcess`.  The source mutates each child's ledger
and local expansion in place before recursing into it; here the pushed
contribution travels as the `down`/`downLoc` arguments and is merged
into the node's own statistics on entry, which yields the same state
at every node. -/
def PostProcessAux (env : Env P) :
    KTree P → QPostponed → List (LocAcc P) → Results → KTree P × Results
  | .leaf ps s, down, downLoc, res =>
      let s := { s with
        postponed := s.postponed.ApplyPostponed down
        local_expansion := s.local_expansion ++ downLoc }
      (.leaf ps s, postLoop env s ps res)
  | .node s l r, down, downLoc, res =>
      let s := { s with
        postponed := s.postponed.ApplyPostponed down
        local_expansion := s.local_expansion ++ downLoc }
      let lo := PostProcessAux env l s.postponed s.local_expansion res
      let ro := PostProcessAux env r s.postponed s.local_expansion lo.2
      (.node s lo.1 ro.1, ro.2)

/-- `PostProcess` (kde.h lines 853-882): push ledgers and local
expansions down, finalize each query point at the leaves. -/
def PostProcess (env : Env P) (t : KTree P) (res : Results) :
    KTree P × Results :=
  PostProcessAux env t QPostponed.Reset [] res

/-- The first reshuffling loop of `Compute` (kde.h lines 957-966):
`tmp_q_results[old_from_new_queries_[i]] = q_results_[i]`. -/
def shuffleWrite (res : Results) (ofn : ℕ → ℕ) :
    List ℕ → Results → Results
  | [], tmp => tmp
  | i :: is, tmp => shuffleWrite res ofn is (upd tmp (ofn i) (res i))

/-- The second reshuffling loop of `Compute` (kde.h lines 967-972):
`q_results_[i] = tmp_q_results[i]`. -/
def shuffleRead (tmp : Results) : List ℕ → Results → Results
  | [], res => res
  | i :: is, res => shuffleRead tmp is (upd res i (tmp i))

/-- `Compute` (kde.h lines 921-979), for the case of two distinct
trees: pre-process both trees, attempt root exclusion pruning, run the
traversal, post-process the query tree, and permute the results back
to original input order.  `junk` models the content of the
default-constructed `tmp_q_results` array before the copy loops. -/
def Compute (env : Env P) (fuel : ℕ) (qroot rroot : KTree P)
    (res : Results) (old_from_new : ℕ → ℕ) (junk : Results) :
    KTree P × Results :=
  let rroot := PreProcess env rroot
  let qroot := PreProcess env qroot
  let ip := IntrinsicPrunable env qroot rroot
  let out := if ip.1 then (ip.2.1, res)
             else FKde env fuel ip.2.1 rroot ip.2.2 QSummaryResult.Init res
  let po := PostProcess env out.1 out.2
  let tmp := shuffleWrite po.2 old_from_new (List.range env.query_count) junk
  let final := shuffleRead tmp (List.range env.query_count) po.2
  (po.1, final)

/-! ### Semantic layer for the soundness and accounting invariants -/

instance : AddCommMonoid DRange where
  add_assoc a b c := by
    show DRange.mk (a.lo + b.lo + c.lo) (a.hi + b.hi + c.hi) =
      DRange.mk (a.lo + (b.lo + c.lo)) (a.hi + (b.hi + c.hi))
    rw [add_assoc, add_assoc]
  zero_add a := by
    show DRange.mk (0 + a.lo) (0 + a.hi) = a
    rw [zero_add, zero_add]
  add_zero a := by
    show DRange.mk (a.lo + 0) (a.hi + 0) = a
    rw [add_zero, add_zero]
  add_comm a b := by
    show DRange.mk (a.lo + b.lo) (a.hi + b.hi) =
      DRange.mk (b.lo + a.lo) (b.hi + a.hi)
    rw [add_comm a.lo b.lo, add_comm a.hi b.hi]
  nsmul := nsmulRec

/-- The exact kernel contribution of a list of reference indices to
query point `q`. -/
def contrib (env : Env P) (q : ℕ) (rs : List ℕ) : ℚ :=
  (rs.map (fun r => env.ker (env.dsq (env.qpt q) (env.rpt r)))).sum

/-- The brute-force unnormalized density of query point `q`: the sum
of the kernel value over every reference point. -/
def bruteForce (env : Env P) (q : ℕ) : ℚ :=
  contrib env q (List.range env.reference_count)

/-- Sum of the postponed density intervals of every node whose point
range contains `q`: together with the point's own interval this is the
density bound effectively maintained for `q`. -/
def ledgerRange : KTree P → ℕ → DRange
  | .leaf ps s, q => if q ∈ ps then s.postponed.d_density_range else 0
  | .node s l r, q =>
      (if q ∈ l.pts ++ r.pts then s.postponed.d_density_range else 0) +
        (ledgerRange l q + ledgerRange r q)

/-- The reference points accounted as pruned for `q` in the postponed
ledgers of the nodes containing `q` (a multiset: order is irrelevant). -/
def ledgerPrunedM : KTree P → ℕ → Multiset ℕ
  | .leaf ps s, q => if q ∈ ps then (s.postponed.pruned_refs : Multiset ℕ) else 0
  | .node s l r, q =>
      (if q ∈ l.pts ++ r.pts then (s.postponed.pruned_refs : Multiset ℕ) else 0) +
        (ledgerPrunedM l q + ledgerPrunedM r q)

/-- The density interval effectively maintained for query point `q`:
its own interval plus every postponed interval attributable to it. -/
def eff (t : KTree P) (q : ℕ) (res : Results) : DRange :=
  (res q).density_range + ledgerRange t q

/-- All reference points accounted for query point `q`: explicitly
summed ones, pruned ones already pushed to the point, and pruned ones
still sitting in node ledgers. -/
def accM (t : KTree P) (q : ℕ) (res : Results) : Multiset ℕ :=
  ((res q).exact_refs : Multiset ℕ) + ((res q).pruned_refs : Multiset ℕ) +
    ledgerPrunedM t q

/-- The ghost `pruned_refs` list matches the `n_pruned` tally. -/
def PostOK (p : QPostponed) : Prop := p.n_pruned = p.pruned_refs.length

/-- The ghost lists of a per-point result match its `n_pruned` tally. -/
def ResOK (r : QResult) : Prop := r.n_pruned = r.pruned_refs.length

/-- Every postponed ledger in the tree satisfies `PostOK`. -/
def TreeOK : KTree P → Prop
  | .leaf _ s => PostOK s.postponed
  | .node s l r => PostOK s.postponed ∧ TreeOK l ∧ TreeOK r

/-- Zeroed statistics over the unit point type, for tree skeletons. -/
def unitStat : KdeStat Unit := ⟨QSummaryResult.Init, QPostponed.Reset, [], []⟩

/-- The skeleton of a tree: structure and point ranges with the
statistics erased. -/
def KTree.skel : KTree P → KTree Unit
  | .leaf ps _ => .leaf ps unitStat
  | .node _ l r => .node unitStat l.skel r.skel

/-- Two trees have the same structure and point ranges (only the
statistics may differ). -/
def ShapeEq (a b : KTree P) : Prop := a.skel = b.skel

/-- The kernel is non-negative and non-increasing in squared distance
(the assumed precondition of the algorithm). -/
def KerOK (env : Env P) : Prop :=
  (∀ x, 0 ≤ env.ker x) ∧ ∀ x y : ℚ, x ≤ y → env.ker y ≤ env.ker x

/-- The bound geometry is correct for every pair of subtrees of the two
given trees: the squared-distance range reported for a pair of bounds
contains the true pairwise squared distances of their points. -/
def GeomOK (env : Env P) (qt rt : KTree P) : Prop :=
  ∀ ql ∈ qt.subtreePts, ∀ rl ∈ rt.subtreePts, ∀ i ∈ ql, ∀ j ∈ rl,
    (env.dRange ql rl).lo ≤ env.dsq (env.qpt i) (env.rpt j) ∧
    env.dsq (env.qpt i) (env.rpt j) ≤ (env.dRange ql rl).hi

/-- The part of `ledgerRange` contributed by proper descendants. -/
def ledgerRangeRest : KTree P → ℕ → DRange
  | .leaf _ _, _ => 0
  | .node _ l r, q => ledgerRange l q + ledgerRange r q

/-- The part of `ledgerPrunedM` contributed by proper descendants. -/
def ledgerPrunedRest : KTree P → ℕ → Multiset ℕ
  | .leaf _ _, _ => 0
  | .node _ l r, q => ledgerPrunedM l q + ledgerPrunedM r q

/-- `a` differs from `b` at most in the density estimate. -/
def EstOnly (a b : QResult) : Prop :=
  a.density_range = b.density_range ∧ a.used_error = b.used_error ∧
  a.n_pruned = b.n_pruned ∧ a.pruned_refs = b.pruned_refs ∧
  a.exact_refs = b.exact_refs

/-- The induction invariant of the recursion: a traversal step on the
pair `(qnode, rnode)` preserves the tree shape and the ghost-count
invariants, leaves query points outside the node untouched, carries
the effective density interval of every owned query point forward by
exactly the reference node's true contribution, and accounts every
reference point of the node exactly once. -/
def FKdeSpecB (env : Env P) (rec : FKdeRec P) (B : ℕ) : Prop :=
  ∀ (qnode rnode : KTree P) (delta : Delta) (unvisited : QSummaryResult)
    (res : Results),
    GeomOK env qnode rnode →
    qnode.pts.Nodup →
    qnode.height + rnode.height < B →
    (∀ q ∈ qnode.pts, memR (contrib env q rnode.pts) delta.d_density_range) →
    TreeOK qnode →
    (∀ j, ResOK (res j)) →
    ShapeEq qnode (rec qnode rnode delta unvisited res).1 ∧
    TreeOK (rec qnode rnode delta unvisited res).1 ∧
    (∀ j, ResOK ((rec qnode rnode delta unvisited res).2 j)) ∧
    (∀ j, j ∉ qnode.pts → (rec qnode rnode delta unvisited res).2 j = res j) ∧
    (∀ q ∈ qnode.pts, ∀ c : ℚ, memR c (eff qnode q res) →
      memR (c + contrib env q rnode.pts)
        (eff (rec qnode rnode delta unvisited res).1 q
          (rec qnode rnode delta unvisited res).2)) ∧
    (∀ q ∈ qnode.pts,
      accM (rec qnode rnode delta unvisited res).1 q
          (rec qnode rnode delta unvisited res).2 =
        accM qnode q res + ↑rnode.pts)

/-- A concrete environment used by witnesses: constant kernel 1, two
query points, one reference point, relative error 0, all expansion
strategies infeasible. -/
def envW : Env ℚ where
  dimension := 1
  query_count := 2
  reference_count := 1
  relative_error := 0
  mul_constant := 1
  maxOrder := 0
  dblMax := 1000
  ker := fun _ => 1
  dsq := fun a b => (a - b) ^ 2
  qpt := fun _ => 0
  rpt := fun _ => 0
  rweight := fun _ => 1
  dRange := fun _ _ => ⟨0, 1⟩
  minToMidSq := fun _ _ => 0
  orderF2L := fun _ _ _ _ _ => (-1, 0)
  orderFF := fun _ _ _ _ _ => (-1, 0)
  orderLoc := fun _ _ _ _ _ => (-1, 0)
  evalFF := fun _ _ _ => 0
  evalLocal := fun _ _ => 0

/-- Zeroed node statistics, for concrete witness trees. -/
def statW : KdeStat ℚ := ⟨QSummaryResult.Init, QPostponed.Reset, [], []⟩

/-- A concrete two-point query tree. -/
def qnW : KTree ℚ := .node statW (.leaf [0] statW) (.leaf [1] statW)

/-- A concrete one-point reference leaf. -/
def rnW : KTree ℚ := .leaf [0] statW

/-- A concrete delta with nonzero width. -/
def deltaW : Delta := ⟨⟨0, 1⟩, ⟨0, 2⟩⟩

/-- Zeroed results array. -/
def resW : Results := fun _ => QResult.Init

/-- The environment of the C7 concrete instance: like `envW` but with
a heuristic that makes the reference child `[1]` farther. -/
def envC : Env ℚ :=
  { envW with minToMidSq := fun rpts _ => if rpts = [1] then 5 else 0 }

/-- Concrete nearer reference child. -/
def rlC : KTree ℚ := .leaf [0] statW

/-- Concrete farther reference child. -/
def rrC : KTree ℚ := .leaf [1] statW

/-- An instrumented recursion continuation: it records the unvisited
summary it receives (its upper density bound) in the returned result
array, exposing which summary each recursive call observes. -/
def recC : FKdeRec ℚ := fun _ _ _ u _ =>
  (qnW, fun _ => { QResult.Init with density_estimate := u.density_range.hi })

/-- The environment of the C9 counterexample: query and reference
datasets differ. -/
def envD : Env ℚ := { envW with qpt := fun _ => 100 }

/-! ### Theorems -/

namespace DRange

@[simp] theorem add_lo (a b : DRange) : (a + b).lo = a.lo + b.lo := rfl
@[simp] theorem add_hi (a b : DRange) : (a + b).hi = a.hi + b.hi := rfl
@[simp] theorem zero_lo : (0 : DRange).lo = 0 := rfl
@[simp] theorem zero_hi : (0 : DRange).hi = 0 := rfl
@[simp] theorem addScalar_lo (r : DRange) (v : ℚ) :
    (r.addScalar v).lo = r.lo + v := rfl
@[simp] theorem addScalar_hi (r : DRange) (v : ℚ) :
    (r.addScalar v).hi = r.hi + v := rfl
@[simp] theorem scale_lo (r : DRange) (n : ℕ) : (r.scale n).lo = r.lo * n := rfl
@[simp] theorem scale_hi (r : DRange) (n : ℕ) : (r.scale n).hi = r.hi * n := rfl
@[simp] theorem mulScalar_lo (r : DRange) (c : ℚ) :
    (r.mulScalar c).lo = r.lo * c := rfl
@[simp] theorem mulScalar_hi (r : DRange) (c : ℚ) :
    (r.mulScalar c).hi = r.hi * c := rfl

theorem ext' {a b : DRange} (h1 : a.lo = b.lo) (h2 : a.hi = b.hi) : a = b := by
  cases a; cases b; cases h1; cases h2; rfl

theorem add_zero' (a : DRange) : a + 0 = a := ext' (by simp) (by simp)
theorem zero_add' (a : DRange) : (0 : DRange) + a = a := ext' (by simp) (by simp)
theorem add_assoc' (a b c : DRange) : a + b + c = a + (b + c) :=
  ext' (by simp [add_assoc]) (by simp [add_assoc])

end DRange

theorem memR_add {a b : ℚ} {x y : DRange} (ha : memR a x) (hb : memR b y) :
    memR (a + b) (x + y) :=
  ⟨add_le_add ha.1 hb.1, add_le_add ha.2 hb.2⟩

theorem memR_addScalar {a : ℚ} {x : DRange} (v : ℚ) (ha : memR a x) :
    memR (a + v) (x.addScalar v) :=
  ⟨by simpa using add_le_add_right ha.1 v, by simpa using add_le_add_right ha.2 v⟩

theorem memR_zero : memR 0 (0 : DRange) := ⟨le_refl 0, le_refl 0⟩

theorem memR_mulScalar {a c : ℚ} {x : DRange} (hc : 0 ≤ c) (ha : memR a x) :
    memR (c * a) (x.mulScalar c) := by
  refine ⟨?_, ?_⟩
  · simpa [DRange.mulScalar, mul_comm] using mul_le_mul_of_nonneg_right ha.1 hc
  · simpa [DRange.mulScalar, mul_comm] using mul_le_mul_of_nonneg_right ha.2 hc

namespace KTree

@[simp] theorem pts_leaf (ps : List ℕ) (s : KdeStat P) :
    (KTree.leaf ps s).pts = ps := rfl
@[simp] theorem pts_node (s : KdeStat P) (l r : KTree P) :
    (KTree.node s l r).pts = l.pts ++ r.pts := rfl
@[simp] theorem pts_updStat (t : KTree P) (f : KdeStat P → KdeStat P) :
    (t.updStat f).pts = t.pts := by
  cases t <;> rfl
@[simp] theorem stat_updStat (t : KTree P) (f : KdeStat P → KdeStat P) :
    (t.updStat f).stat = f t.stat := by
  cases t <;> rfl
@[simp] theorem count_updStat (t : KTree P) (f : KdeStat P → KdeStat P) :
    (t.updStat f).count = t.count := by
  cases t <;> rfl
@[simp] theorem isLeaf_updStat (t : KTree P) (f : KdeStat P → KdeStat P) :
    (t.updStat f).isLeaf = t.isLeaf := by
  cases t <;> rfl
@[simp] theorem height_updStat (t : KTree P) (f : KdeStat P → KdeStat P) :
    (t.updStat f).height = t.height := by
  cases t <;> rfl

end KTree

@[simp] theorem upd_same (res : Results) (i : ℕ) (r : QResult) :
    upd res i r i = r := by simp [upd]

theorem upd_other (res : Results) {i j : ℕ} (r : QResult) (h : j ≠ i) :
    upd res i r j = res j := by simp [upd, h]

@[simp] theorem contrib_nil (env : Env P) (q : ℕ) : contrib env q [] = 0 := rfl

theorem contrib_cons (env : Env P) (q r : ℕ) (rs : List ℕ) :
    contrib env q (r :: rs) =
      env.ker (env.dsq (env.qpt q) (env.rpt r)) + contrib env q rs := by
  simp [contrib]

theorem contrib_append (env : Env P) (q : ℕ) (as bs : List ℕ) :
    contrib env q (as ++ bs) = contrib env q as + contrib env q bs := by
  simp [contrib]

theorem contrib_nonneg (env : Env P) (hker : ∀ x, 0 ≤ env.ker x)
    (q : ℕ) (rs : List ℕ) : 0 ≤ contrib env q rs := by
  induction rs with
  | nil => simp
  | cons r rs ih =>
    rw [contrib_cons]
    exact add_nonneg (hker _) ih

theorem ShapeEq.rfl (t : KTree P) : ShapeEq t t := Eq.refl _

theorem ShapeEq.trans {a b c : KTree P} (h1 : ShapeEq a b)
    (h2 : ShapeEq b c) : ShapeEq a c := Eq.trans h1 h2

theorem skel_pts (t : KTree P) : t.skel.pts = t.pts := by
  induction t with
  | leaf ps s => rfl
  | node s l r ihl ihr => simp [KTree.skel, KTree.pts, ihl, ihr]

theorem skel_height (t : KTree P) : t.skel.height = t.height := by
  induction t with
  | leaf ps s => rfl
  | node s l r ihl ihr => simp [KTree.skel, KTree.height, ihl, ihr]

theorem skel_subtreePts (t : KTree P) : t.skel.subtreePts = t.subtreePts := by
  induction t with
  | leaf ps s => rfl
  | node s l r ihl ihr =>
    simp only [KTree.skel, KTree.subtreePts, KTree.subtrees, List.map_cons,
      List.map_append] at ihl ihr ⊢
    rw [ihl, ihr]
    simp [KTree.pts, skel_pts]

theorem ShapeEq.pts_eq {a b : KTree P} (h : ShapeEq a b) : a.pts = b.pts := by
  rw [← skel_pts a, ← skel_pts b, h]

theorem ShapeEq.height_eq {a b : KTree P} (h : ShapeEq a b) :
    a.height = b.height := by
  rw [← skel_height a, ← skel_height b, h]

theorem ShapeEq.subtreePts_eq {a b : KTree P} (h : ShapeEq a b) :
    a.subtreePts = b.subtreePts := by
  rw [← skel_subtreePts a, ← skel_subtreePts b, h]

theorem ShapeEq.updStat (t : KTree P) (f : KdeStat P → KdeStat P) :
    ShapeEq t (t.updStat f) := by
  cases t <;> rfl

theorem GeomOK.shape_left {env : Env P} {qt qt' rt : KTree P}
    (h : GeomOK env qt rt) (hs : ShapeEq qt qt') : GeomOK env qt' rt := by
  rw [GeomOK, ← hs.subtreePts_eq]
  exact h

theorem GeomOK.shape_right {env : Env P} {qt rt rt' : KTree P}
    (h : GeomOK env qt rt) (hs : ShapeEq rt rt') : GeomOK env qt rt' := by
  rw [GeomOK, ← hs.subtreePts_eq]
  exact h

/-- Every tree is the head of its own subtree list. -/
theorem KTree.self_mem_subtrees (t : KTree P) : t ∈ t.subtrees := by
  cases t <;> simp [KTree.subtrees]

theorem mem_subtreePts_self (t : KTree P) : t.pts ∈ t.subtreePts :=
  List.mem_map_of_mem _ (KTree.self_mem_subtrees t)

theorem subtreePts_left {s : KdeStat P} {l r : KTree P} :
    ∀ x ∈ l.subtreePts, x ∈ (KTree.node s l r).subtreePts := by
  intro x hx
  simp only [KTree.subtreePts, KTree.subtrees, List.map_cons, List.map_append,
    List.mem_cons, List.mem_append]
  simp only [KTree.subtreePts] at hx
  exact Or.inr (Or.inl hx)

theorem subtreePts_right {s : KdeStat P} {l r : KTree P} :
    ∀ x ∈ r.subtreePts, x ∈ (KTree.node s l r).subtreePts := by
  intro x hx
  simp only [KTree.subtreePts, KTree.subtrees, List.map_cons, List.map_append,
    List.mem_cons, List.mem_append]
  simp only [KTree.subtreePts] at hx
  exact Or.inr (Or.inr hx)

theorem GeomOK.left_child {env : Env P} {s : KdeStat P} {l r rt : KTree P}
    (h : GeomOK env (KTree.node s l r) rt) : GeomOK env l rt :=
  fun ql hql => h ql (subtreePts_left ql hql)

theorem GeomOK.right_child {env : Env P} {s : KdeStat P} {l r rt : KTree P}
    (h : GeomOK env (KTree.node s l r) rt) : GeomOK env r rt :=
  fun ql hql => h ql (subtreePts_right ql hql)

theorem GeomOK.ref_left {env : Env P} {qt : KTree P} {s : KdeStat P}
    {l r : KTree P} (h : GeomOK env qt (KTree.node s l r)) : GeomOK env qt l :=
  fun ql hql rl hrl => h ql hql rl (subtreePts_left rl hrl)

theorem GeomOK.ref_right {env : Env P} {qt : KTree P} {s : KdeStat P}
    {l r : KTree P} (h : GeomOK env qt (KTree.node s l r)) : GeomOK env qt r :=
  fun ql hql rl hrl => h ql hql rl (subtreePts_right rl hrl)

/-! ### Ledger decomposition lemmas -/

theorem ledgerRange_decomp (t : KTree P) (q : ℕ) :
    ledgerRange t q =
      (if q ∈ t.pts then t.stat.postponed.d_density_range else 0) +
        ledgerRangeRest t q := by
  cases t
  · simp [ledgerRange, ledgerRangeRest, KTree.pts, KTree.stat]
  · rfl

theorem ledgerPrunedM_decomp (t : KTree P) (q : ℕ) :
    ledgerPrunedM t q =
      (if q ∈ t.pts then (t.stat.postponed.pruned_refs : Multiset ℕ) else 0) +
        ledgerPrunedRest t q := by
  cases t
  · simp [ledgerPrunedM, ledgerPrunedRest, KTree.pts, KTree.stat]
  · rfl

@[simp] theorem ledgerRangeRest_updStat (t : KTree P)
    (f : KdeStat P → KdeStat P) (q : ℕ) :
    ledgerRangeRest (t.updStat f) q = ledgerRangeRest t q := by
  cases t <;> rfl

@[simp] theorem ledgerPrunedRest_updStat (t : KTree P)
    (f : KdeStat P → KdeStat P) (q : ℕ) :
    ledgerPrunedRest (t.updStat f) q = ledgerPrunedRest t q := by
  cases t <;> rfl

theorem ledgerRange_of_not_mem {t : KTree P} {q : ℕ} (h : q ∉ t.pts) :
    ledgerRange t q = 0 := by
  induction t with
  | leaf ps s =>
    simp only [KTree.pts] at h
    simp [ledgerRange, h]
  | node s l r ihl ihr =>
    simp only [KTree.pts, List.mem_append, not_or] at h
    simp [ledgerRange, KTree.pts, List.mem_append, h.1, h.2,
      ihl h.1, ihr h.2]

theorem ledgerPrunedM_of_not_mem {t : KTree P} {q : ℕ} (h : q ∉ t.pts) :
    ledgerPrunedM t q = 0 := by
  induction t with
  | leaf ps s =>
    simp only [KTree.pts] at h
    simp [ledgerPrunedM, h]
  | node s l r ihl ihr =>
    simp only [KTree.pts, List.mem_append, not_or] at h
    simp [ledgerPrunedM, KTree.pts, List.mem_append, h.1, h.2,
      ihl h.1, ihr h.2]

/-- Effect of a root-statistics update that adds `D` to the postponed
density interval. -/
theorem eff_updStat_add {t : KTree P} {q : ℕ} (hq : q ∈ t.pts)
    (f : KdeStat P → KdeStat P) (D : DRange)
    (hf : (f t.stat).postponed.d_density_range =
      t.stat.postponed.d_density_range + D) (res : Results) :
    eff (t.updStat f) q res = eff t q res + D := by
  unfold eff
  rw [ledgerRange_decomp (t.updStat f), ledgerRange_decomp t,
    KTree.stat_updStat, ledgerRangeRest_updStat, KTree.pts_updStat,
    if_pos hq, if_pos hq, hf]
  abel

/-- Effect of a root-statistics update that appends `L` to the
postponed pruned ghost list. -/
theorem accM_updStat_add {t : KTree P} {q : ℕ} (hq : q ∈ t.pts)
    (f : KdeStat P → KdeStat P) (L : List ℕ)
    (hf : (f t.stat).postponed.pruned_refs =
      t.stat.postponed.pruned_refs ++ L) (res : Results) :
    accM (t.updStat f) q res = accM t q res + ↑L := by
  unfold accM
  rw [ledgerPrunedM_decomp (t.updStat f), ledgerPrunedM_decomp t,
    KTree.stat_updStat, ledgerPrunedRest_updStat, KTree.pts_updStat,
    if_pos hq, if_pos hq, hf]
  simp only [← Multiset.coe_add]
  abel

/-- Effect of a root-statistics update that changes neither the
postponed density interval nor the pruned ghost list. -/
theorem eff_updStat_keep {t : KTree P} {q : ℕ} (hq : q ∈ t.pts)
    (f : KdeStat P → KdeStat P)
    (hf : (f t.stat).postponed.d_density_range =
      t.stat.postponed.d_density_range) (res : Results) :
    eff (t.updStat f) q res = eff t q res := by
  have := eff_updStat_add hq f 0 (by rw [hf, add_zero]) res
  rwa [add_zero] at this

theorem eff_node_left {s : KdeStat P} {l r : KTree P} {q : ℕ}
    (hq : q ∈ l.pts) (hqr : q ∉ r.pts) (res : Results) :
    eff (KTree.node s l r) q res =
      eff l q res + s.postponed.d_density_range := by
  unfold eff
  rw [show ledgerRange (KTree.node s l r) q =
    (if q ∈ l.pts ++ r.pts then s.postponed.d_density_range else 0) +
      (ledgerRange l q + ledgerRange r q) from rfl]
  rw [if_pos (List.mem_append.mpr (Or.inl hq)), ledgerRange_of_not_mem hqr]
  abel

theorem eff_node_right {s : KdeStat P} {l r : KTree P} {q : ℕ}
    (hq : q ∈ r.pts) (hql : q ∉ l.pts) (res : Results) :
    eff (KTree.node s l r) q res =
      eff r q res + s.postponed.d_density_range := by
  unfold eff
  rw [show ledgerRange (KTree.node s l r) q =
    (if q ∈ l.pts ++ r.pts then s.postponed.d_density_range else 0) +
      (ledgerRange l q + ledgerRange r q) from rfl]
  rw [if_pos (List.mem_append.mpr (Or.inr hq)), ledgerRange_of_not_mem hql]
  abel

theorem accM_node_left {s : KdeStat P} {l r : KTree P} {q : ℕ}
    (hq : q ∈ l.pts) (hqr : q ∉ r.pts) (res : Results) :
    accM (KTree.node s l r) q res =
      accM l q res + ↑s.postponed.pruned_refs := by
  unfold accM
  rw [show ledgerPrunedM (KTree.node s l r) q =
    (if q ∈ l.pts ++ r.pts then (s.postponed.pruned_refs : Multiset ℕ) else 0) +
      (ledgerPrunedM l q + ledgerPrunedM r q) from rfl]
  rw [if_pos (List.mem_append.mpr (Or.inl hq)), ledgerPrunedM_of_not_mem hqr]
  abel

theorem accM_node_right {s : KdeStat P} {l r : KTree P} {q : ℕ}
    (hq : q ∈ r.pts) (hql : q ∉ l.pts) (res : Results) :
    accM (KTree.node s l r) q res =
      accM r q res + ↑s.postponed.pruned_refs := by
  unfold accM
  rw [show ledgerPrunedM (KTree.node s l r) q =
    (if q ∈ l.pts ++ r.pts then (s.postponed.pruned_refs : Multiset ℕ) else 0) +
      (ledgerPrunedM l q + ledgerPrunedM r q) from rfl]
  rw [if_pos (List.mem_append.mpr (Or.inr hq)), ledgerPrunedM_of_not_mem hql]
  abel

/-! ### Kernel and geometry bounds -/

theorem contrib_bounds (env : Env P) {q : ℕ} {a b : ℚ} :
    ∀ rs : List ℕ,
      (∀ j ∈ rs, a ≤ env.ker (env.dsq (env.qpt q) (env.rpt j)) ∧
        env.ker (env.dsq (env.qpt q) (env.rpt j)) ≤ b) →
      a * rs.length ≤ contrib env q rs ∧ contrib env q rs ≤ b * rs.length := by
  intro rs
  induction rs with
  | nil => intro _; simp
  | cons j js ih =>
    intro hall
    have hj := hall j (List.mem_cons_self j js)
    have hjs := ih (fun x hx => hall x (List.mem_cons_of_mem j hx))
    rw [contrib_cons]
    constructor
    · calc a * ((j :: js).length : ℚ) = a + a * js.length := by
            push_cast [List.length_cons]; ring
        _ ≤ env.ker (env.dsq (env.qpt q) (env.rpt j)) + contrib env q js :=
            add_le_add hj.1 hjs.1
    · calc env.ker (env.dsq (env.qpt q) (env.rpt j)) + contrib env q js ≤
            b + b * js.length := add_le_add hj.2 hjs.2
        _ = b * ((j :: js).length : ℚ) := by
            push_cast [List.length_cons]; ring

/-- The density range computed by `IntrinsicPrunable` contains the true
contribution of the reference node to any query point of the query
node, given a monotone kernel and correct geometry for the pair. -/
theorem contrib_mem_scale (env : Env P) (hker : KerOK env)
    {qpts rpts : List ℕ} {q : ℕ} (hq : q ∈ qpts)
    (hgeom : ∀ i ∈ qpts, ∀ j ∈ rpts,
      (env.dRange qpts rpts).lo ≤ env.dsq (env.qpt i) (env.rpt j) ∧
      env.dsq (env.qpt i) (env.rpt j) ≤ (env.dRange qpts rpts).hi) :
    memR (contrib env q rpts)
      ((rangeUnnormOnSq env.ker (env.dRange qpts rpts)).scale rpts.length) := by
  have hall : ∀ j ∈ rpts,
      env.ker (env.dRange qpts rpts).hi ≤
        env.ker (env.dsq (env.qpt q) (env.rpt j)) ∧
      env.ker (env.dsq (env.qpt q) (env.rpt j)) ≤
        env.ker (env.dRange qpts rpts).lo := by
    intro j hj
    have hb := hgeom q hq j hj
    exact ⟨hker.2 _ _ hb.2, hker.2 _ _ hb.1⟩
  have := contrib_bounds env rpts hall
  exact ⟨this.1, this.2⟩

/-- When the computed upper density bound of a pair is zero, the true
contribution of the reference node vanishes. -/
theorem contrib_eq_zero_of_hi_zero (env : Env P) (hker : KerOK env)
    {qpts rpts : List ℕ} {q : ℕ} (hq : q ∈ qpts)
    (hgeom : ∀ i ∈ qpts, ∀ j ∈ rpts,
      (env.dRange qpts rpts).lo ≤ env.dsq (env.qpt i) (env.rpt j) ∧
      env.dsq (env.qpt i) (env.rpt j) ≤ (env.dRange qpts rpts).hi)
    (hzero :
      ((rangeUnnormOnSq env.ker (env.dRange qpts rpts)).scale rpts.length).hi
        = 0) :
    contrib env q rpts = 0 := by
  have hmem := contrib_mem_scale env hker hq hgeom
  have hup := hmem.2
  rw [hzero] at hup
  exact le_antisymm hup (contrib_nonneg env hker.1 q rpts)

/-! ### Effect characterizations of the pruning operations -/

theorem EstOnly.refl (a : QResult) : EstOnly a a := ⟨rfl, rfl, rfl, rfl, rfl⟩

theorem eff_of_estOnly {t : KTree P} {q : ℕ} {res res' : Results}
    (h : ∀ j, EstOnly (res' j) (res j)) : eff t q res' = eff t q res := by
  unfold eff
  rw [(h q).1]

theorem accM_of_estOnly {t : KTree P} {q : ℕ} {res res' : Results}
    (h : ∀ j, EstOnly (res' j) (res j)) : accM t q res' = accM t q res := by
  unfold accM
  rw [(h q).2.2.2.1, (h q).2.2.2.2]

theorem resOK_of_estOnly {res res' : Results} (h : ∀ j, EstOnly (res' j) (res j))
    (hok : ∀ j, ResOK (res j)) : ∀ j, ResOK (res' j) := by
  intro j
  unfold ResOK
  rw [(h j).2.2.1, (h j).2.2.2.1]
  exact hok j

/-- Replacing a tree's root statistics twice collapses. -/
theorem updStat_const (t : KTree P) (f : KdeStat P → KdeStat P) :
    t.updStat f = t.updStat (fun _ => (t.updStat f).stat) := by
  cases t <;> rfl

theorem addFFEval_estimate (env : Env P) (ff : List (FFAcc P)) (ord : ℤ) :
    ∀ (qs : List ℕ) (res : Results) (j : ℕ),
      EstOnly (addFFEval env ff ord qs res j) (res j) := by
  intro qs
  induction qs with
  | nil => intro res j; exact EstOnly.refl _
  | cons q qs ih =>
    intro res j
    have h := ih (upd res q
      { res q with density_estimate :=
          (res q).density_estimate + env.evalFF ff q ord }) j
    by_cases hj : j = q
    · subst hj
      simpa [addFFEval, upd] using h
    · simpa [addFFEval, upd_other _ _ hj] using h

theorem addFFEval_frame (env : Env P) (ff : List (FFAcc P)) (ord : ℤ) :
    ∀ (qs : List ℕ) (res : Results) (j : ℕ), j ∉ qs →
      addFFEval env ff ord qs res j = res j := by
  intro qs
  induction qs with
  | nil => intro res j _; rfl
  | cons q qs ih =>
    intro res j hj
    have hne : j ≠ q := fun h => hj (h ▸ List.mem_cons_self q qs)
    have hnotin : j ∉ qs := fun h => hj (List.mem_cons_of_mem q h)
    rw [show addFFEval env ff ord (q :: qs) res = addFFEval env ff ord qs
      (upd res q { res q with density_estimate :=
        (res q).density_estimate + env.evalFF ff q ord }) from rfl]
    rw [ih _ j hnotin, upd_other _ _ hne]

/-- Every successful `ExtrinsicPrunable` outcome (finite-difference or
any series strategy) adds the full delta range to the query node's
postponed interval, accounts the whole reference node in the ghost
ledger, touches nothing below the root statistics, and changes the
per-point results at most in their estimates (and only inside the
query node's range). -/
theorem ExtrinsicPrunable_some_spec {env : Env P} {qnode rnode : KTree P}
    {delta : Delta} {mu : QSummaryResult} {res : Results}
    {out : KTree P × Results}
    (h : ExtrinsicPrunable env qnode rnode delta mu res = some out) :
    out.1 = qnode.updStat (fun _ => out.1.stat) ∧
    out.1.stat.postponed.d_density_range =
      qnode.stat.postponed.d_density_range + delta.d_density_range ∧
    out.1.stat.postponed.pruned_refs =
      qnode.stat.postponed.pruned_refs ++ rnode.pts ∧
    out.1.stat.postponed.n_pruned =
      qnode.stat.postponed.n_pruned + rnode.count ∧
    (∀ j, EstOnly (out.2 j) (res j)) ∧
    (∀ j, j ∉ qnode.pts → out.2 j = res j) := by
  unfold ExtrinsicPrunable at h
  split at h
  · rw [Option.some_inj] at h
    subst h
    refine ⟨updStat_const _ _, ?_, ?_, ?_, fun j => EstOnly.refl _,
      fun j _ => rfl⟩ <;> simp [KTree.stat_updStat]
  · simp only [ExtrinsicPrunableSeriesExpansion] at h
    repeat' split at h
    all_goals try exact Option.noConfusion h
    all_goals rw [Option.some_inj] at h
    all_goals subst h
    all_goals refine ⟨updStat_const _ _, by simp [KTree.stat_updStat],
      by simp [KTree.stat_updStat], by simp [KTree.stat_updStat], ?_, ?_⟩
    all_goals first
      | exact fun j => EstOnly.refl _
      | exact fun j => addFFEval_estimate env _ _ _ _ j
      | exact fun j _ => rfl
      | exact fun j hj => addFFEval_frame env _ _ _ _ j hj

/-- If `IntrinsicPrunable` reports no exclusion, it leaves the query
node unchanged. -/
theorem IntrinsicPrunable_false_tree {env : Env P} {q r : KTree P}
    (h : (IntrinsicPrunable env q r).1 = false) :
    (IntrinsicPrunable env q r).2.1 = q := by
  unfold IntrinsicPrunable at h ⊢
  by_cases hz :
      ((rangeUnnormOnSq env.ker (env.dRange q.pts r.pts)).scale r.count).hi = 0
  · rw [if_neg (fun hk => hk hz)] at h
    cases h
  · rw [if_pos hz]

/-- The delta computed by `IntrinsicPrunable`, in both outcomes. -/
theorem IntrinsicPrunable_delta (env : Env P) (qn rn : KTree P) :
    (IntrinsicPrunable env qn rn).2.2 =
      ⟨env.dRange qn.pts rn.pts,
        (rangeUnnormOnSq env.ker (env.dRange qn.pts rn.pts)).scale rn.count⟩ := by
  simp only [IntrinsicPrunable]
  split <;> rfl

/-- The state effect of a successful exclusion prune. -/
theorem IntrinsicPrunable_true_spec {env : Env P} {qn rn : KTree P}
    (h : (IntrinsicPrunable env qn rn).1 = true) :
    (IntrinsicPrunable env qn rn).2.1 =
      qn.updStat (fun s =>
        { s with postponed :=
          { s.postponed with
            n_pruned := s.postponed.n_pruned + rn.count
            pruned_refs := s.postponed.pruned_refs ++ rn.pts } }) ∧
    ((rangeUnnormOnSq env.ker (env.dRange qn.pts rn.pts)).scale rn.count).hi
      = 0 := by
  unfold IntrinsicPrunable at h ⊢
  by_cases hz :
      ((rangeUnnormOnSq env.ker (env.dRange qn.pts rn.pts)).scale rn.count).hi
        = 0
  · rw [if_neg (fun hk => hk hz)]
    exact ⟨rfl, hz⟩
  · rw [if_pos hz] at h
    cases h

/-- The pairwise instance of the geometry hypothesis. -/
theorem GeomOK.pair {env : Env P} {qn rn : KTree P} (h : GeomOK env qn rn) :
    ∀ i ∈ qn.pts, ∀ j ∈ rn.pts,
      (env.dRange qn.pts rn.pts).lo ≤ env.dsq (env.qpt i) (env.rpt j) ∧
      env.dsq (env.qpt i) (env.rpt j) ≤ (env.dRange qn.pts rn.pts).hi :=
  h qn.pts (mem_subtreePts_self qn) rn.pts (mem_subtreePts_self rn)

/-- The delta produced by `IntrinsicPrunable` bounds the true
contribution for every query point of the pair. -/
theorem IntrinsicPrunable_delta_sound (env : Env P) (hker : KerOK env)
    {qn rn : KTree P} (hgeom : GeomOK env qn rn) :
    ∀ q ∈ qn.pts,
      memR (contrib env q rn.pts)
        (IntrinsicPrunable env qn rn).2.2.d_density_range := by
  intro q hq
  rw [IntrinsicPrunable_delta]
  exact contrib_mem_scale env hker hq hgeom.pair

/-- Under exclusion pruning the true contribution vanishes. -/
theorem IntrinsicPrunable_true_contrib_zero (env : Env P) (hker : KerOK env)
    {qn rn : KTree P} (hgeom : GeomOK env qn rn)
    (h : (IntrinsicPrunable env qn rn).1 = true) :
    ∀ q ∈ qn.pts, contrib env q rn.pts = 0 := by
  intro q hq
  exact contrib_eq_zero_of_hi_zero env hker hq hgeom.pair
    (IntrinsicPrunable_true_spec h).2

/-! ### The exhaustive base case -/

theorem DRange.addScalar_zero (r : DRange) : r.addScalar 0 = r :=
  DRange.ext' (add_zero _) (add_zero _)

theorem baseInner_spec (env : Env P) (q : ℕ) :
    ∀ (rs : List ℕ) (rq : QResult),
      baseInner env q rs rq =
        { rq with
          density_range := rq.density_range.addScalar (contrib env q rs)
          density_estimate := rq.density_estimate + contrib env q rs
          exact_refs := rq.exact_refs ++ rs } := by
  intro rs
  induction rs with
  | nil =>
    intro rq
    cases rq
    simp [baseInner, DRange.addScalar_zero]
  | cons r rs ih =>
    intro rq
    rw [show baseInner env q (r :: rs) rq = baseInner env q rs
      { rq with
        density_range :=
          rq.density_range.addScalar (env.ker (env.dsq (env.qpt q) (env.rpt r)))
        density_estimate :=
          rq.density_estimate + env.ker (env.dsq (env.qpt q) (env.rpt r))
        exact_refs := rq.exact_refs ++ [r] } from rfl, ih]
    cases rq
    simp only [QResult.mk.injEq, DRange.addScalar, DRange.mk.injEq,
      contrib_cons]
    refine ⟨⟨by ring, by ring⟩, by ring, trivial, trivial, by simp⟩

theorem baseOuter_spec (env : Env P) (post : QPostponed) (rpts : List ℕ) :
    ∀ (qs : List ℕ) (res : Results) (summ : QSummaryResult), qs.Nodup →
      (∀ j, j ∉ qs → (baseOuter env post rpts qs res summ).1 j = res j) ∧
      (∀ q ∈ qs, (baseOuter env post rpts qs res summ).1 q =
        baseInner env q rpts ((res q).ApplyPostponed post)) := by
  intro qs
  induction qs with
  | nil => intro res summ _; exact ⟨fun j _ => rfl, fun q hq => absurd hq (by simp)⟩
  | cons q qs ih =>
    intro res summ hnodup
    have hq_notin : q ∉ qs := (List.nodup_cons.mp hnodup).1
    have hnodup' : qs.Nodup := (List.nodup_cons.mp hnodup).2
    have heq : baseOuter env post rpts (q :: qs) res summ =
        baseOuter env post rpts qs
          (upd res q (baseInner env q rpts ((res q).ApplyPostponed post)))
          (summ.AccumulateResult
            (baseInner env q rpts ((res q).ApplyPostponed post))) := rfl
    rw [heq]
    obtain ⟨hframe, hmem⟩ := ih
      (upd res q (baseInner env q rpts ((res q).ApplyPostponed post)))
      (summ.AccumulateResult
        (baseInner env q rpts ((res q).ApplyPostponed post))) hnodup'
    constructor
    · intro j hj
      have hjq : j ≠ q := fun h => hj (h ▸ List.mem_cons_self q qs)
      have hjqs : j ∉ qs := fun h => hj (List.mem_cons_of_mem q h)
      rw [hframe j hjqs, upd_other _ _ hjq]
    · intro x hx
      rcases List.mem_cons.mp hx with h | h
      · subst h
        rw [hframe x hq_notin, upd_same]
      · rw [hmem x h]
        have hxq : x ≠ q := fun he => hq_notin (he ▸ h)
        rw [upd_other _ _ hxq]

/-- The net effect of `FKdeBase`: the query node's ledger is pushed to
every owned point, every reference point of the node is summed
exhaustively into every owned point's interval and estimate (and ghost
list), the ledger is cleared, and nothing else changes. -/
theorem FKdeBase_spec (env : Env P) (qnode rnode : KTree P) (res : Results)
    (hnodup : qnode.pts.Nodup) :
    (FKdeBase env qnode rnode res).1 =
      qnode.updStat (fun _ => (FKdeBase env qnode rnode res).1.stat) ∧
    (FKdeBase env qnode rnode res).1.stat.postponed = QPostponed.Reset ∧
    (∀ j, j ∉ qnode.pts → (FKdeBase env qnode rnode res).2 j = res j) ∧
    (∀ q ∈ qnode.pts, (FKdeBase env qnode rnode res).2 q =
      baseInner env q rnode.pts ((res q).ApplyPostponed
        qnode.stat.postponed)) := by
  obtain ⟨hframe, hmem⟩ := baseOuter_spec env qnode.stat.postponed rnode.pts
    qnode.pts res
    (QSummaryResult.StartReaccumulate env.dblMax env.reference_count) hnodup
  exact ⟨updStat_const _ _, by simp [FKdeBase, KTree.stat_updStat],
    fun j hj => hframe j hj, fun q hq => hmem q hq⟩

/-! ### The traversal invariant -/

theorem TreeOK_root {t : KTree P} (h : TreeOK t) : PostOK t.stat.postponed := by
  cases t
  · exact h
  · exact h.1

theorem TreeOK_updStat {t : KTree P} (h : TreeOK t)
    (f : KdeStat P → KdeStat P) (hf : PostOK (f t.stat).postponed) :
    TreeOK (t.updStat f) := by
  cases t
  · exact hf
  · exact ⟨hf, h.2.1, h.2.2⟩

theorem PostOK_apply {a b : QPostponed} (ha : PostOK a) (hb : PostOK b) :
    PostOK (a.ApplyPostponed b) := by
  unfold PostOK QPostponed.ApplyPostponed at *
  simp [ha, hb]

theorem PostOK_reset : PostOK (QPostponed.Reset) := by
  unfold PostOK QPostponed.Reset
  rfl

theorem eff_congr_at {t : KTree P} {q : ℕ} {res res' : Results}
    (h : res' q = res q) : eff t q res' = eff t q res := by
  unfold eff
  rw [h]

theorem accM_congr_at {t : KTree P} {q : ℕ} {res res' : Results}
    (h : res' q = res q) : accM t q res' = accM t q res := by
  unfold accM
  rw [h]

/-- Invariant transfer for one child phase of the query-side split:
pushing the parent ledger onto the child, exclusion-testing and
possibly recursing moves the child's effective state forward by the
reference node's contribution, relative to the child's interval plus
the pushed parent ledger. -/
theorem childPhase_spec (env : Env P) (hker : KerOK env) {B : ℕ}
    (rec : FKdeRec P) (hrec : FKdeSpecB env rec B) (parent_post : QPostponed)
    (child rnode : KTree P) (unvisited : QSummaryResult) (res : Results)
    (hgeom : GeomOK env child rnode)
    (hnodup : child.pts.Nodup)
    (hfuel : child.height + rnode.height < B)
    (htok : TreeOK child) (hpok : PostOK parent_post)
    (hrok : ∀ j, ResOK (res j)) :
    ShapeEq child
      (childPhase env rec parent_post child rnode unvisited res).1 ∧
    TreeOK (childPhase env rec parent_post child rnode unvisited res).1 ∧
    (∀ j, ResOK ((childPhase env rec parent_post child rnode unvisited res).2 j)) ∧
    (∀ j, j ∉ child.pts →
      (childPhase env rec parent_post child rnode unvisited res).2 j = res j) ∧
    (∀ q ∈ child.pts, ∀ c : ℚ,
      memR c (eff child q res + parent_post.d_density_range) →
      memR (c + contrib env q rnode.pts)
        (eff (childPhase env rec parent_post child rnode unvisited res).1 q
          (childPhase env rec parent_post child rnode unvisited res).2)) ∧
    (∀ q ∈ child.pts,
      accM (childPhase env rec parent_post child rnode unvisited res).1 q
          (childPhase env rec parent_post child rnode unvisited res).2 =
        (accM child q res + ↑parent_post.pruned_refs) + ↑rnode.pts) := by
  have hpush : ∀ cs : KdeStat P,
      ({ cs with postponed := cs.postponed.ApplyPostponed parent_post
        } : KdeStat P).postponed = cs.postponed.ApplyPostponed parent_post :=
    fun _ => rfl
  set c1 := child.updStat (fun cs =>
    { cs with postponed := cs.postponed.ApplyPostponed parent_post }) with hc1
  have hshape1 : ShapeEq child c1 := ShapeEq.updStat child _
  have hc1pts : c1.pts = child.pts := by rw [hc1, KTree.pts_updStat]
  have htok1 : TreeOK c1 :=
    TreeOK_updStat htok _ (PostOK_apply (TreeOK_root htok) hpok)
  have hgeom1 : GeomOK env c1 rnode := hgeom.shape_left hshape1
  have heff1 : ∀ q ∈ child.pts, ∀ (rs : Results),
      eff c1 q rs = eff child q rs + parent_post.d_density_range := by
    intro q hq rs
    exact eff_updStat_add hq _ parent_post.d_density_range rfl rs
  have hacc1 : ∀ q ∈ child.pts, ∀ (rs : Results),
      accM c1 q rs = accM child q rs + ↑parent_post.pruned_refs := by
    intro q hq rs
    exact accM_updStat_add hq _ parent_post.pruned_refs rfl rs
  have hcp : childPhase env rec parent_post child rnode unvisited res =
      (if (IntrinsicPrunable env c1 rnode).1 then
        ((IntrinsicPrunable env c1 rnode).2.1, res)
      else rec (IntrinsicPrunable env c1 rnode).2.1 rnode
        (IntrinsicPrunable env c1 rnode).2.2 unvisited res) := rfl
  rw [hcp]
  cases hip : (IntrinsicPrunable env c1 rnode).1 with
  | true =>
    rw [if_pos rfl]
    obtain ⟨htree, hzero⟩ := IntrinsicPrunable_true_spec hip
    have hcontrib0 : ∀ q ∈ child.pts, contrib env q rnode.pts = 0 := by
      intro q hq
      exact IntrinsicPrunable_true_contrib_zero env hker hgeom1 hip q
        (hc1pts ▸ hq)
    rw [htree]
    refine ⟨hshape1.trans (ShapeEq.updStat c1 _), ?_, hrok, fun j _ => rfl,
      ?_, ?_⟩
    · refine TreeOK_updStat htok1 _ ?_
      have hroot := TreeOK_root htok1
      unfold PostOK at hroot ⊢
      simp [hroot, KTree.count]
    · intro q hq c hc
      rw [hcontrib0 q hq, add_zero]
      rw [eff_updStat_keep (hc1pts ▸ hq) _ rfl, heff1 q hq]
      exact hc
    · intro q hq
      rw [accM_updStat_add (hc1pts ▸ hq) _ rnode.pts rfl, hacc1 q hq]
  | false =>
    rw [if_neg Bool.false_ne_true]
    rw [IntrinsicPrunable_false_tree hip]
    obtain ⟨hshape2, htok2, hrok2, hframe2, heff2, hacc2⟩ :=
      hrec c1 rnode (IntrinsicPrunable env c1 rnode).2.2 unvisited res hgeom1
        (hc1pts ▸ hnodup)
        (by rw [hc1, KTree.height_updStat]; exact hfuel)
        (IntrinsicPrunable_delta_sound env hker hgeom1)
        htok1 hrok
    refine ⟨hshape1.trans hshape2, htok2, hrok2, ?_, ?_, ?_⟩
    · intro j hj
      exact hframe2 j (hc1pts ▸ hj)
    · intro q hq c hc
      refine heff2 q (hc1pts ▸ hq) c ?_
      rw [heff1 q hq]
      exact hc
    · intro q hq
      rw [hacc2 q (hc1pts ▸ hq), hacc1 q hq]

theorem ShapeEq.node {s s' : KdeStat P} {l r l' r' : KTree P}
    (h1 : ShapeEq l l') (h2 : ShapeEq r r') :
    ShapeEq (KTree.node s l r) (KTree.node s' l' r') := by
  unfold ShapeEq at h1 h2 ⊢
  unfold KTree.skel
  rw [h1, h2]

/-- Invariant transfer for the query-side split. -/
theorem FKdeQuerySplit_spec (env : Env P) (hker : KerOK env) {B : ℕ}
    (rec : FKdeRec P) (hrec : FKdeSpecB env rec B) (s : KdeStat P)
    (l r rnode : KTree P) (delta : Delta) (unvisited : QSummaryResult)
    (res : Results)
    (hgeom : GeomOK env (KTree.node s l r) rnode)
    (hnodup : (KTree.node s l r).pts.Nodup)
    (hfl : l.height + rnode.height < B)
    (hfr : r.height + rnode.height < B)
    (htok : TreeOK (KTree.node s l r))
    (hrok : ∀ j, ResOK (res j)) :
    ShapeEq (KTree.node s l r)
      (FKdeQuerySplit env rec (KTree.node s l r) rnode delta unvisited res).1 ∧
    TreeOK
      (FKdeQuerySplit env rec (KTree.node s l r) rnode delta unvisited res).1 ∧
    (∀ j, ResOK
      ((FKdeQuerySplit env rec (KTree.node s l r) rnode delta unvisited
        res).2 j)) ∧
    (∀ j, j ∉ (KTree.node s l r).pts →
      (FKdeQuerySplit env rec (KTree.node s l r) rnode delta unvisited
        res).2 j = res j) ∧
    (∀ q ∈ (KTree.node s l r).pts, ∀ c : ℚ,
      memR c (eff (KTree.node s l r) q res) →
      memR (c + contrib env q rnode.pts)
        (eff (FKdeQuerySplit env rec (KTree.node s l r) rnode delta unvisited
          res).1 q
          (FKdeQuerySplit env rec (KTree.node s l r) rnode delta unvisited
            res).2)) ∧
    (∀ q ∈ (KTree.node s l r).pts,
      accM (FKdeQuerySplit env rec (KTree.node s l r) rnode delta unvisited
          res).1 q
          (FKdeQuerySplit env rec (KTree.node s l r) rnode delta unvisited
            res).2 =
        accM (KTree.node s l r) q res + ↑rnode.pts) := by
  have hnodups := List.nodup_append.mp (by simpa [KTree.pts] using hnodup)
  have hnl : l.pts.Nodup := hnodups.1
  have hnr : r.pts.Nodup := hnodups.2.1
  have hdisj : ∀ q ∈ l.pts, q ∉ r.pts := fun q hq => hnodups.2.2 hq
  obtain ⟨hsOK, hlOK, hrOK⟩ := htok
  set L := childPhase env rec s.postponed l rnode unvisited res with hLdef
  obtain ⟨PLshape, PLtok, PLrok, PLframe, PLeff, PLacc⟩ :=
    childPhase_spec env hker rec hrec s.postponed l rnode unvisited res
      hgeom.left_child hnl hfl hlOK hsOK hrok
  set R := childPhase env rec s.postponed r rnode unvisited L.2 with hRdef
  obtain ⟨PRshape, PRtok, PRrok, PRframe, PReff, PRacc⟩ :=
    childPhase_spec env hker rec hrec s.postponed r rnode unvisited L.2
      hgeom.right_child hnr hfr hrOK hsOK PLrok
  have hLpts : L.1.pts = l.pts := (PLshape.pts_eq).symm
  have hRpts : R.1.pts = r.pts := (PRshape.pts_eq).symm
  have hout : FKdeQuerySplit env rec (KTree.node s l r) rnode delta unvisited
      res =
      (KTree.node
        { s with
          summary_result := (((QSummaryResult.StartReaccumulate env.dblMax
            env.reference_count).AccumulateSummary
              (L.1.stat.summary_result.ApplyPostponed
                L.1.stat.postponed)).AccumulateSummary
              (R.1.stat.summary_result.ApplyPostponed R.1.stat.postponed))
          postponed := QPostponed.Reset } L.1 R.1, R.2) := rfl
  rw [hout]
  refine ⟨ShapeEq.node PLshape PRshape,
    ⟨PostOK_reset, PLtok, PRtok⟩, PRrok, ?_, ?_, ?_⟩
  · intro j hj
    simp only [KTree.pts, List.mem_append, not_or] at hj
    rw [PRframe j hj.2, PLframe j hj.1]
  · intro q hq c hc
    simp only [KTree.pts, List.mem_append] at hq
    rcases hq with hq | hq
    · have hqr : q ∉ r.pts := hdisj q hq
      have hqR1 : q ∉ R.1.pts := by rw [hRpts]; exact hqr
      have hstep := PLeff q hq c (by
        rw [← eff_node_left hq hqr res]
        exact hc)
      rw [eff_node_left (by rw [hLpts]; exact hq) hqR1 R.2]
      rw [show (QPostponed.Reset : QPostponed).d_density_range = 0 from rfl,
        add_zero]
      rw [eff_congr_at (PRframe q hqr)]
      exact hstep
    · have hql : q ∉ l.pts := fun hl' => hdisj q hl' hq
      have hqL1 : q ∉ L.1.pts := by rw [hLpts]; exact hql
      have hstep := PReff q hq c (by
        rw [eff_congr_at (PLframe q hql), ← eff_node_right hq hql res]
        exact hc)
      rw [eff_node_right (by rw [hRpts]; exact hq) hqL1 R.2]
      rw [show (QPostponed.Reset : QPostponed).d_density_range = 0 from rfl,
        add_zero]
      exact hstep
  · intro q hq
    simp only [KTree.pts, List.mem_append] at hq
    rcases hq with hq | hq
    · have hqr : q ∉ r.pts := hdisj q hq
      have hqR1 : q ∉ R.1.pts := by rw [hRpts]; exact hqr
      rw [accM_node_left (by rw [hLpts]; exact hq) hqR1 R.2]
      rw [show (QPostponed.Reset : QPostponed).pruned_refs = [] from rfl]
      rw [accM_congr_at (PRframe q hqr), PLacc q hq,
        accM_node_left hq hqr res]
      simp
    · have hql : q ∉ l.pts := fun hl' => hdisj q hl' hq
      have hqL1 : q ∉ L.1.pts := by rw [hLpts]; exact hql
      rw [accM_node_right (by rw [hRpts]; exact hq) hqL1 R.2]
      rw [show (QPostponed.Reset : QPostponed).pruned_refs = [] from rfl]
      rw [PRacc q hq, accM_congr_at (PLframe q hql),
        accM_node_right hq hql res]
      simp

theorem PostOK_prune {p : QPostponed} (hp : PostOK p) (rn : KTree P) :
    PostOK { p with
      n_pruned := p.n_pruned + rn.count
      pruned_refs := p.pruned_refs ++ rn.pts } := by
  unfold PostOK at *
  simp [hp, KTree.count]

/-- Invariant transfer for the reference-side split. -/
theorem FKdeRefSplit_spec (env : Env P) (hker : KerOK env) {B : ℕ}
    (rec : FKdeRec P) (hrec : FKdeSpecB env rec B) (qnode : KTree P)
    (rs : KdeStat P) (rl rr : KTree P) (delta : Delta)
    (unvisited : QSummaryResult) (res : Results)
    (hgeom : GeomOK env qnode (KTree.node rs rl rr))
    (hnodup : qnode.pts.Nodup)
    (hfl : qnode.height + rl.height < B)
    (hfr : qnode.height + rr.height < B)
    (htok : TreeOK qnode) (hrok : ∀ j, ResOK (res j)) :
    ShapeEq qnode
      (FKdeRefSplit env rec qnode (KTree.node rs rl rr) delta unvisited
        res).1 ∧
    TreeOK
      (FKdeRefSplit env rec qnode (KTree.node rs rl rr) delta unvisited
        res).1 ∧
    (∀ j, ResOK
      ((FKdeRefSplit env rec qnode (KTree.node rs rl rr) delta unvisited
        res).2 j)) ∧
    (∀ j, j ∉ qnode.pts →
      (FKdeRefSplit env rec qnode (KTree.node rs rl rr) delta unvisited
        res).2 j = res j) ∧
    (∀ q ∈ qnode.pts, ∀ c : ℚ,
      memR c (eff qnode q res) →
      memR (c + contrib env q (KTree.node rs rl rr).pts)
        (eff (FKdeRefSplit env rec qnode (KTree.node rs rl rr) delta unvisited
          res).1 q
          (FKdeRefSplit env rec qnode (KTree.node rs rl rr) delta unvisited
            res).2)) ∧
    (∀ q ∈ qnode.pts,
      accM (FKdeRefSplit env rec qnode (KTree.node rs rl rr) delta unvisited
          res).1 q
          (FKdeRefSplit env rec qnode (KTree.node rs rl rr) delta unvisited
            res).2 =
        accM qnode q res + ↑(KTree.node rs rl rr).pts) := by
  have hcontrib_split : ∀ q, contrib env q (KTree.node rs rl rr).pts =
      contrib env q rl.pts + contrib env q rr.pts := fun q =>
    contrib_append env q rl.pts rr.pts
  have hcoe_split : ((KTree.node rs rl rr).pts : Multiset ℕ) =
      (rl.pts : Multiset ℕ) + (rr.pts : Multiset ℕ) := by
    rw [KTree.pts_node, ← Multiset.coe_add]
  have hout : FKdeRefSplit env rec qnode (KTree.node rs rl rr) delta unvisited
      res =
      (if (IntrinsicPrunable env qnode rl).1 then
        (if (IntrinsicPrunable env (IntrinsicPrunable env qnode rl).2.1
            rr).1 then
          ((IntrinsicPrunable env (IntrinsicPrunable env qnode rl).2.1 rr).2.1,
            res)
        else
          rec (IntrinsicPrunable env (IntrinsicPrunable env qnode rl).2.1
              rr).2.1 rr
            (IntrinsicPrunable env (IntrinsicPrunable env qnode rl).2.1
              rr).2.2 unvisited res)
      else if (IntrinsicPrunable env (IntrinsicPrunable env qnode rl).2.1
          rr).1 then
        rec (IntrinsicPrunable env (IntrinsicPrunable env qnode rl).2.1
            rr).2.1 rl (IntrinsicPrunable env qnode rl).2.2 unvisited res
      else if ¬(Heuristic env (IntrinsicPrunable env (IntrinsicPrunable env
          qnode rl).2.1 rr).2.1 rl >
          Heuristic env (IntrinsicPrunable env (IntrinsicPrunable env qnode
            rl).2.1 rr).2.1 rr) then
        (fun out => rec out.1 rr
          (IntrinsicPrunable env (IntrinsicPrunable env qnode rl).2.1
            rr).2.2 unvisited out.2)
          (rec (IntrinsicPrunable env (IntrinsicPrunable env qnode rl).2.1
              rr).2.1 rl
            (IntrinsicPrunable env qnode rl).2.2
            (unvisited.ApplyDelta
              (IntrinsicPrunable env (IntrinsicPrunable env qnode rl).2.1
                rr).2.2) res)
      else
        (fun out => rec out.1 rl (IntrinsicPrunable env qnode rl).2.2
          unvisited out.2)
          (rec (IntrinsicPrunable env (IntrinsicPrunable env qnode rl).2.1
              rr).2.1 rr
            (IntrinsicPrunable env (IntrinsicPrunable env qnode rl).2.1
              rr).2.2
            (unvisited.ApplyDelta (IntrinsicPrunable env qnode rl).2.2)
            res)) := rfl
  rw [hout]
  cases hip1 : (IntrinsicPrunable env qnode rl).1 with
  | true =>
    rw [if_pos rfl]
    obtain ⟨htr1, _⟩ := IntrinsicPrunable_true_spec hip1
    have hc0l : ∀ q ∈ qnode.pts, contrib env q rl.pts = 0 :=
      IntrinsicPrunable_true_contrib_zero env hker hgeom.ref_left hip1
    rw [htr1]
    have hshape1 : ShapeEq qnode (qnode.updStat (fun s =>
        { s with postponed :=
          { s.postponed with
            n_pruned := s.postponed.n_pruned + rl.count
            pruned_refs := s.postponed.pruned_refs ++ rl.pts } })) :=
      ShapeEq.updStat qnode _
    set q1 := qnode.updStat (fun s =>
      { s with postponed :=
        { s.postponed with
          n_pruned := s.postponed.n_pruned + rl.count
          pruned_refs := s.postponed.pruned_refs ++ rl.pts } }) with hq1def
    have hq1pts : q1.pts = qnode.pts := hshape1.pts_eq.symm
    have htok1 : TreeOK q1 :=
      TreeOK_updStat htok _ (PostOK_prune (TreeOK_root htok) rl)
    have hgeom1 : GeomOK env q1 (KTree.node rs rl rr) :=
      hgeom.shape_left hshape1
    have heff1 : ∀ q ∈ qnode.pts, ∀ rsx : Results,
        eff q1 q rsx = eff qnode q rsx := by
      intro q hq rsx
      exact eff_updStat_keep hq _ rfl rsx
    have hacc1 : ∀ q ∈ qnode.pts, ∀ rsx : Results,
        accM q1 q rsx = accM qnode q rsx + ↑rl.pts := by
      intro q hq rsx
      exact accM_updStat_add hq _ rl.pts rfl rsx
    cases hip2 : (IntrinsicPrunable env q1 rr).1 with
    | true =>
      rw [if_pos rfl]
      obtain ⟨htr2, _⟩ := IntrinsicPrunable_true_spec hip2
      have hc0r : ∀ q ∈ qnode.pts, contrib env q rr.pts = 0 := by
        intro q hq
        exact IntrinsicPrunable_true_contrib_zero env hker hgeom1.ref_right
          hip2 q (hq1pts ▸ hq)
      rw [htr2]
      refine ⟨hshape1.trans (ShapeEq.updStat q1 _), ?_, hrok,
        fun j _ => rfl, ?_, ?_⟩
      · exact TreeOK_updStat htok1 _ (PostOK_prune (TreeOK_root htok1) rr)
      · intro q hq c hc
        rw [hcontrib_split q, hc0l q hq, hc0r q hq, add_zero, add_zero]
        rw [eff_updStat_keep (hq1pts ▸ hq) _ rfl, heff1 q hq]
        exact hc
      · intro q hq
        rw [accM_updStat_add (hq1pts ▸ hq) _ rr.pts rfl, hacc1 q hq,
          hcoe_split]
        abel
    | false =>
      rw [if_neg Bool.false_ne_true]
      rw [IntrinsicPrunable_false_tree hip2]
      obtain ⟨S2shape, S2tok, S2rok, S2frame, S2eff, S2acc⟩ :=
        hrec q1 rr (IntrinsicPrunable env q1 rr).2.2 unvisited res
          hgeom1.ref_right (hq1pts ▸ hnodup)
          (by rw [hq1def, KTree.height_updStat]; exact hfr)
          (IntrinsicPrunable_delta_sound env hker hgeom1.ref_right)
          htok1 hrok
      refine ⟨hshape1.trans S2shape, S2tok, S2rok, ?_, ?_, ?_⟩
      · intro j hj
        exact S2frame j (hq1pts ▸ hj)
      · intro q hq c hc
        rw [hcontrib_split q, hc0l q hq, zero_add]
        refine S2eff q (hq1pts ▸ hq) c ?_
        rw [heff1 q hq]
        exact hc
      · intro q hq
        rw [S2acc q (hq1pts ▸ hq), hacc1 q hq, hcoe_split]
        abel
  | false =>
    rw [if_neg Bool.false_ne_true]
    rw [IntrinsicPrunable_false_tree hip1]
    have hdelta1 := IntrinsicPrunable_delta_sound env hker hgeom.ref_left
    cases hip2 : (IntrinsicPrunable env qnode rr).1 with
    | true =>
      rw [if_pos rfl]
      obtain ⟨htr2, _⟩ := IntrinsicPrunable_true_spec hip2
      have hc0r : ∀ q ∈ qnode.pts, contrib env q rr.pts = 0 :=
        IntrinsicPrunable_true_contrib_zero env hker hgeom.ref_right hip2
      rw [htr2]
      have hshape2 : ShapeEq qnode (qnode.updStat (fun s =>
          { s with postponed :=
            { s.postponed with
              n_pruned := s.postponed.n_pruned + rr.count
              pruned_refs := s.postponed.pruned_refs ++ rr.pts } })) :=
        ShapeEq.updStat qnode _
      set q2 := qnode.updStat (fun s =>
        { s with postponed :=
          { s.postponed with
            n_pruned := s.postponed.n_pruned + rr.count
            pruned_refs := s.postponed.pruned_refs ++ rr.pts } }) with hq2def
      have hq2pts : q2.pts = qnode.pts := hshape2.pts_eq.symm
      have htok2 : TreeOK q2 :=
        TreeOK_updStat htok _ (PostOK_prune (TreeOK_root htok) rr)
      have hgeom2 : GeomOK env q2 (KTree.node rs rl rr) :=
        hgeom.shape_left hshape2
      obtain ⟨S1shape, S1tok, S1rok, S1frame, S1eff, S1acc⟩ :=
        hrec q2 rl (IntrinsicPrunable env qnode rl).2.2 unvisited res
          hgeom2.ref_left (hq2pts ▸ hnodup)
          (by rw [hq2def, KTree.height_updStat]; exact hfl)
          (by
            intro q hq
            exact hdelta1 q (hq2pts ▸ hq))
          htok2 hrok
      refine ⟨hshape2.trans S1shape, S1tok, S1rok, ?_, ?_, ?_⟩
      · intro j hj
        exact S1frame j (hq2pts ▸ hj)
      · intro q hq c hc
        rw [hcontrib_split q, hc0r q hq, add_zero]
        refine S1eff q (hq2pts ▸ hq) c ?_
        rw [eff_updStat_keep hq _ rfl]
        exact hc
      · intro q hq
        rw [S1acc q (hq2pts ▸ hq),
          accM_updStat_add hq _ rr.pts rfl, hcoe_split]
        abel
    | false =>
      rw [if_neg Bool.false_ne_true]
      rw [IntrinsicPrunable_false_tree hip2]
      have hdelta2 := IntrinsicPrunable_delta_sound env hker hgeom.ref_right
      by_cases hh : ¬(Heuristic env qnode rl > Heuristic env qnode rr)
      · rw [if_pos hh]
        obtain ⟨S1shape, S1tok, S1rok, S1frame, S1eff, S1acc⟩ :=
          hrec qnode rl (IntrinsicPrunable env qnode rl).2.2
            (unvisited.ApplyDelta (IntrinsicPrunable env qnode rr).2.2) res
            hgeom.ref_left hnodup hfl hdelta1 htok hrok
        set T1 := rec qnode rl (IntrinsicPrunable env qnode rl).2.2
          (unvisited.ApplyDelta (IntrinsicPrunable env qnode rr).2.2) res
          with hT1def
        obtain ⟨S2shape, S2tok, S2rok, S2frame, S2eff, S2acc⟩ :=
          hrec T1.1 rr (IntrinsicPrunable env qnode rr).2.2 unvisited T1.2
            ((hgeom.shape_left S1shape).ref_right)
            (S1shape.pts_eq ▸ hnodup)
            (by rw [← S1shape.height_eq]; exact hfr)
            (by
              intro q hq
              exact hdelta2 q (S1shape.pts_eq ▸ hq))
            S1tok S1rok
        refine ⟨S1shape.trans S2shape, S2tok, S2rok, ?_, ?_, ?_⟩
        · intro j hj
          rw [S2frame j (fun hx => hj (S1shape.pts_eq ▸ hx)), S1frame j hj]
        · intro q hq c hc
          rw [hcontrib_split q, ← add_assoc]
          exact S2eff q (S1shape.pts_eq ▸ hq) _ (S1eff q hq c hc)
        · intro q hq
          rw [S2acc q (S1shape.pts_eq ▸ hq), S1acc q hq, hcoe_split]
          abel
      · rw [if_neg hh]
        obtain ⟨S1shape, S1tok, S1rok, S1frame, S1eff, S1acc⟩ :=
          hrec qnode rr (IntrinsicPrunable env qnode rr).2.2
            (unvisited.ApplyDelta (IntrinsicPrunable env qnode rl).2.2) res
            hgeom.ref_right hnodup hfr hdelta2 htok hrok
        set T1 := rec qnode rr (IntrinsicPrunable env qnode rr).2.2
          (unvisited.ApplyDelta (IntrinsicPrunable env qnode rl).2.2) res
          with hT1def
        obtain ⟨S2shape, S2tok, S2rok, S2frame, S2eff, S2acc⟩ :=
          hrec T1.1 rl (IntrinsicPrunable env qnode rl).2.2 unvisited T1.2
            ((hgeom.shape_left S1shape).ref_left)
            (S1shape.pts_eq ▸ hnodup)
            (by rw [← S1shape.height_eq]; exact hfl)
            (by
              intro q hq
              exact hdelta1 q (S1shape.pts_eq ▸ hq))
            S1tok S1rok
        refine ⟨S1shape.trans S2shape, S2tok, S2rok, ?_, ?_, ?_⟩
        · intro j hj
          rw [S2frame j (fun hx => hj (S1shape.pts_eq ▸ hx)), S1frame j hj]
        · intro q hq c hc
          rw [hcontrib_split q,
            show c + (contrib env q rl.pts + contrib env q rr.pts) =
              c + contrib env q rr.pts + contrib env q rl.pts by ring]
          exact S2eff q (S1shape.pts_eq ▸ hq) _ (S1eff q hq c hc)
        · intro q hq
          rw [S2acc q (S1shape.pts_eq ▸ hq), S1acc q hq, hcoe_split]
          abel

/-- The traversal invariant holds for `FKde` at every fuel level: one
call on a pair `(qnode, rnode)` — whichever combination of pruning,
exhaustive summation and splitting it performs — advances every owned
query point's effective interval by the reference node's true
contribution and accounts each of the node's reference points exactly
once. -/
theorem FKde_spec (env : Env P) (hker : KerOK env) :
    ∀ fuel : ℕ, FKdeSpecB env (FKde env fuel) fuel := by
  intro fuel
  induction fuel with
  | zero =>
    intro qnode rnode delta unvisited res _ _ hfuel _ _ _
    exact absurd hfuel (Nat.not_lt_zero _)
  | succ fuel ih =>
    intro qnode rnode delta unvisited res hgeom hnodup hfuel hdelta htok hrok
    have hunf : FKde env (fuel + 1) qnode rnode delta unvisited res =
        (match ExtrinsicPrunable env qnode rnode delta
            (muOf qnode delta unvisited) res with
         | some out => out
         | none =>
           if qnode.isLeaf && rnode.isLeaf then FKdeBase env qnode rnode res
           else if rnode.isLeaf ||
               (rnode.count ≤ qnode.count && !qnode.isLeaf) then
             FKdeQuerySplit env (FKde env fuel) qnode rnode delta unvisited res
           else
             FKdeRefSplit env (FKde env fuel) qnode rnode delta unvisited
               res) := rfl
    rw [hunf]
    split
    · next out hE =>
      obtain ⟨htree, hdd, hpr, hnp, hest, hframe⟩ :=
        ExtrinsicPrunable_some_spec hE
      have hshape : ShapeEq qnode out.1 := by
        rw [htree]
        exact ShapeEq.updStat qnode _
      refine ⟨hshape, ?_, resOK_of_estOnly hest hrok, hframe, ?_, ?_⟩
      · rw [htree]
        refine TreeOK_updStat htok _ ?_
        unfold PostOK
        rw [hnp, hpr, List.length_append, TreeOK_root htok, KTree.count]
      · intro q hq c hc
        have heq : eff out.1 q out.2 =
            eff qnode q res + delta.d_density_range := by
          rw [eff_of_estOnly hest]
          conv_lhs => rw [htree]
          exact eff_updStat_add hq _ delta.d_density_range
            (by rw [hdd]) res
        rw [heq]
        exact memR_add hc (hdelta q hq)
      · intro q hq
        have heq : accM out.1 q out.2 = accM qnode q res + ↑rnode.pts := by
          rw [accM_of_estOnly hest]
          conv_lhs => rw [htree]
          exact accM_updStat_add hq _ rnode.pts (by rw [hpr]) res
        exact heq
    · next hE =>
      by_cases hbl : (qnode.isLeaf && rnode.isLeaf) = true
      · rw [if_pos hbl]
        have hand := hbl
        rw [Bool.and_eq_true] at hand
        obtain ⟨ps, s0⟩ : ∃ ps s0, qnode = KTree.leaf ps s0 := by
          cases qnode with
          | leaf ps s0 => exact ⟨ps, s0, rfl⟩
          | node s l r => simp [KTree.isLeaf] at hand
        obtain ⟨s0, rfl⟩ := s0
        obtain ⟨htree, hreset, hframe, hmem⟩ :=
          FKdeBase_spec env (KTree.leaf ps s0) rnode res hnodup
        have hshape : ShapeEq (KTree.leaf ps s0)
            (FKdeBase env (KTree.leaf ps s0) rnode res).1 := by
          rw [htree]
          exact ShapeEq.updStat _ _
        refine ⟨hshape, ?_, ?_, hframe, ?_, ?_⟩
        · rw [htree]
          refine TreeOK_updStat htok _ ?_
          show PostOK (FKdeBase env (KTree.leaf ps s0) rnode res).1.stat.postponed
          rw [hreset]
          exact PostOK_reset
        · intro j
          by_cases hj : j ∈ (KTree.leaf ps s0).pts
          · unfold ResOK
            rw [hmem j hj, baseInner_spec]
            show ((res j).ApplyPostponed
              (KTree.leaf ps s0).stat.postponed).n_pruned =
              ((res j).ApplyPostponed
                (KTree.leaf ps s0).stat.postponed).pruned_refs.length
            unfold QResult.ApplyPostponed
            simp only [List.length_append]
            rw [hrok j, TreeOK_root htok]
          · unfold ResOK
            rw [hframe j hj]
            exact hrok j
        · intro q hq c hc
          unfold eff at hc ⊢
          rw [hmem q hq, baseInner_spec]
          have hledger :
              ledgerRange (FKdeBase env (KTree.leaf ps s0) rnode res).1 q
                = 0 := by
            rw [ledgerRange_decomp, hreset]
            have hrest :
                ledgerRangeRest (FKdeBase env (KTree.leaf ps s0) rnode
                  res).1 q = 0 := by
              rw [htree, ledgerRangeRest_updStat]
              rfl
            rw [hrest]
            rw [show (QPostponed.Reset : QPostponed).d_density_range = 0
              from rfl]
            simp
          rw [hledger]
          have hc' : memR c ((res q).density_range +
              s0.postponed.d_density_range) := by
            have hq' : q ∈ ps := hq
            have hll : ledgerRange (KTree.leaf ps s0) q =
                s0.postponed.d_density_range := by
              show (if q ∈ ps then s0.postponed.d_density_range else 0) = _
              rw [if_pos hq']
            rwa [hll] at hc
          have hfin := memR_addScalar (contrib env q rnode.pts) hc'
          show memR (c + contrib env q rnode.pts)
            ((((res q).ApplyPostponed s0.postponed).density_range.addScalar
              (contrib env q rnode.pts)) + 0)
          rw [add_zero]
          show memR (c + contrib env q rnode.pts)
            (((res q).density_range +
              s0.postponed.d_density_range).addScalar
              (contrib env q rnode.pts))
          exact hfin
        · intro q hq
          unfold accM
          rw [hmem q hq, baseInner_spec]
          have hledger :
              ledgerPrunedM (FKdeBase env (KTree.leaf ps s0) rnode res).1 q
                = 0 := by
            rw [ledgerPrunedM_decomp, hreset]
            have hrest :
                ledgerPrunedRest (FKdeBase env (KTree.leaf ps s0) rnode
                  res).1 q = 0 := by
              rw [htree, ledgerPrunedRest_updStat]
              rfl
            rw [hrest]
            rw [show (QPostponed.Reset : QPostponed).pruned_refs = []
              from rfl]
            simp
          rw [hledger]
          have hq' : q ∈ ps := hq
          have hold : ledgerPrunedM (KTree.leaf ps s0) q =
              (s0.postponed.pruned_refs : Multiset ℕ) := by
            show (if q ∈ ps then (s0.postponed.pruned_refs : Multiset ℕ)
              else 0) = _
            rw [if_pos hq']
          rw [hold]
          show (((((res q).ApplyPostponed s0.postponed).exact_refs ++
              rnode.pts : List ℕ) : Multiset ℕ)) +
              (((res q).ApplyPostponed s0.postponed).pruned_refs :
                Multiset ℕ) + 0 =
            ((res q).exact_refs : Multiset ℕ) +
              ((res q).pruned_refs : Multiset ℕ) +
              (s0.postponed.pruned_refs : Multiset ℕ) + ↑rnode.pts
          unfold QResult.ApplyPostponed
          simp only [← Multiset.coe_add]
          abel
      · rw [if_neg hbl]
        by_cases hsp : (rnode.isLeaf ||
            (rnode.count ≤ qnode.count && !qnode.isLeaf)) = true
        · rw [if_pos hsp]
          have hqnl : qnode.isLeaf = false := by
            cases hq2 : qnode.isLeaf with
            | false => rfl
            | true =>
              exfalso
              have hsp' := hsp
              rw [Bool.or_eq_true] at hsp'
              rcases hsp' with h | h
              · exact hbl (by rw [Bool.and_eq_true]; exact ⟨hq2, h⟩)
              · rw [Bool.and_eq_true, hq2] at h
                simp at h
          obtain ⟨s, l, r, rfl⟩ : ∃ s l r, qnode = KTree.node s l r := by
            cases qnode with
            | leaf ps s0 => simp [KTree.isLeaf] at hqnl
            | node s l r => exact ⟨s, l, r, rfl⟩
          have hhl : l.height + rnode.height < fuel := by
            have hh : (KTree.node s l r).height =
                1 + max l.height r.height := rfl
            have h1 : l.height ≤ max l.height r.height := le_max_left _ _
            omega
          have hhr : r.height + rnode.height < fuel := by
            have hh : (KTree.node s l r).height =
                1 + max l.height r.height := rfl
            have h1 : r.height ≤ max l.height r.height := le_max_right _ _
            omega
          exact FKdeQuerySplit_spec env hker (FKde env fuel) ih s l r rnode
            delta unvisited res hgeom hnodup hhl hhr htok hrok
        · rw [if_neg hsp]
          have hrnl : rnode.isLeaf = false := by
            cases hr : rnode.isLeaf with
            | false => rfl
            | true =>
              exact absurd (by rw [Bool.or_eq_true]; exact Or.inl hr) hsp
          obtain ⟨rs, rl, rr, rfl⟩ : ∃ rs rl rr, rnode = KTree.node rs rl rr := by
            cases rnode with
            | leaf ps s0 => simp [KTree.isLeaf] at hrnl
            | node rs rl rr => exact ⟨rs, rl, rr, rfl⟩
          have hhl : qnode.height + rl.height < fuel := by
            have hh : (KTree.node rs rl rr).height =
                1 + max rl.height rr.height := rfl
            have h1 : rl.height ≤ max rl.height rr.height := le_max_left _ _
            omega
          have hhr : qnode.height + rr.height < fuel := by
            have hh : (KTree.node rs rl rr).height =
                1 + max rl.height rr.height := rfl
            have h1 : rr.height ≤ max rl.height rr.height := le_max_right _ _
            omega
          exact FKdeRefSplit_spec env hker (FKde env fuel) ih qnode rs rl rr
            delta unvisited res hgeom hnodup hhl hhr htok hrok

/-! ### Pre- and post-processing -/

theorem preProcess_shape (env : Env P) (t : KTree P) :
    ShapeEq t (PreProcess env t) := by
  induction t with
  | leaf ps s => rfl
  | node s l r ihl ihr => exact ShapeEq.node ihl ihr

theorem preProcess_ledgerRange (env : Env P) (t : KTree P) (q : ℕ) :
    ledgerRange (PreProcess env t) q = 0 := by
  induction t with
  | leaf ps s =>
    show (if q ∈ ps then (QPostponed.Reset : QPostponed).d_density_range
      else 0) = 0
    rw [show (QPostponed.Reset : QPostponed).d_density_range = 0 from rfl]
    simp
  | node s l r ihl ihr =>
    show (if q ∈ (PreProcess env l).pts ++ (PreProcess env r).pts then
        (QPostponed.Reset : QPostponed).d_density_range else 0) +
      (ledgerRange (PreProcess env l) q + ledgerRange (PreProcess env r) q)
        = 0
    rw [ihl, ihr,
      show (QPostponed.Reset : QPostponed).d_density_range = 0 from rfl]
    simp

theorem preProcess_ledgerPrunedM (env : Env P) (t : KTree P) (q : ℕ) :
    ledgerPrunedM (PreProcess env t) q = 0 := by
  induction t with
  | leaf ps s =>
    show (if q ∈ ps then ((QPostponed.Reset : QPostponed).pruned_refs :
      Multiset ℕ) else 0) = 0
    rw [show (QPostponed.Reset : QPostponed).pruned_refs = [] from rfl]
    simp
  | node s l r ihl ihr =>
    show (if q ∈ (PreProcess env l).pts ++ (PreProcess env r).pts then
        ((QPostponed.Reset : QPostponed).pruned_refs : Multiset ℕ) else 0) +
      (ledgerPrunedM (PreProcess env l) q + ledgerPrunedM (PreProcess env r) q)
        = 0
    rw [ihl, ihr,
      show (QPostponed.Reset : QPostponed).pruned_refs = [] from rfl]
    simp

theorem preProcess_treeOK (env : Env P) (t : KTree P) :
    TreeOK (PreProcess env t) := by
  induction t with
  | leaf ps s => exact PostOK_reset
  | node s l r ihl ihr => exact ⟨PostOK_reset, ihl, ihr⟩

theorem ledgerRange_node_left {s : KdeStat P} {l r : KTree P} {q : ℕ}
    (hq : q ∈ l.pts) (hqr : q ∉ r.pts) :
    ledgerRange (KTree.node s l r) q =
      ledgerRange l q + s.postponed.d_density_range := by
  show (if q ∈ l.pts ++ r.pts then s.postponed.d_density_range else 0) +
    (ledgerRange l q + ledgerRange r q) = _
  rw [if_pos (List.mem_append.mpr (Or.inl hq)), ledgerRange_of_not_mem hqr]
  abel

theorem ledgerRange_node_right {s : KdeStat P} {l r : KTree P} {q : ℕ}
    (hq : q ∈ r.pts) (hql : q ∉ l.pts) :
    ledgerRange (KTree.node s l r) q =
      ledgerRange r q + s.postponed.d_density_range := by
  show (if q ∈ l.pts ++ r.pts then s.postponed.d_density_range else 0) +
    (ledgerRange l q + ledgerRange r q) = _
  rw [if_pos (List.mem_append.mpr (Or.inr hq)), ledgerRange_of_not_mem hql]
  abel

theorem postLoop_spec (env : Env P) (s : KdeStat P) :
    ∀ (qs : List ℕ) (res : Results), qs.Nodup →
      (∀ j, j ∉ qs → postLoop env s qs res j = res j) ∧
      (∀ q ∈ qs, postLoop env s qs res q =
        ({ (res q).ApplyPostponed s.postponed with
          density_estimate :=
            ((res q).ApplyPostponed s.postponed).density_estimate +
              env.evalLocal s.local_expansion q }).Postprocess
          env.mul_constant) := by
  intro qs
  induction qs with
  | nil => intro res _; exact ⟨fun j _ => rfl, fun q hq => absurd hq (by simp)⟩
  | cons q qs ih =>
    intro res hnodup
    have hq_notin : q ∉ qs := (List.nodup_cons.mp hnodup).1
    have hnodup' : qs.Nodup := (List.nodup_cons.mp hnodup).2
    have heq : postLoop env s (q :: qs) res = postLoop env s qs
        (upd res q
          (({ (res q).ApplyPostponed s.postponed with
            density_estimate :=
              ((res q).ApplyPostponed s.postponed).density_estimate +
                env.evalLocal s.local_expansion q }).Postprocess
            env.mul_constant)) := rfl
    rw [heq]
    obtain ⟨hframe, hmem⟩ := ih _ hnodup'
    constructor
    · intro j hj
      have hjq : j ≠ q := fun h => hj (h ▸ List.mem_cons_self q qs)
      have hjqs : j ∉ qs := fun h => hj (List.mem_cons_of_mem q h)
      rw [hframe j hjqs, upd_other _ _ hjq]
    · intro x hx
      rcases List.mem_cons.mp hx with h | h
      · subst h
        rw [hframe x hq_notin, upd_same]
      · rw [hmem x h]
        have hxq : x ≠ q := fun he => hq_notin (he ▸ h)
        rw [upd_other _ _ hxq]

/-- The net per-point effect of post-processing: every pending ledger
on the path to the point is applied, the local-expansion value is added
to the estimate, and the result is normalized. -/
theorem PostProcessAux_spec (env : Env P) :
    ∀ (t : KTree P) (down : QPostponed) (dl : List (LocAcc P))
      (res : Results), t.pts.Nodup → TreeOK t → PostOK down →
      (∀ j, ResOK (res j)) →
      (∀ j, j ∉ t.pts → (PostProcessAux env t down dl res).2 j = res j) ∧
      (∀ j, ResOK ((PostProcessAux env t down dl res).2 j)) ∧
      (∀ q ∈ t.pts,
        ((PostProcessAux env t down dl res).2 q).density_range =
          ((res q).density_range +
            (ledgerRange t q + down.d_density_range)).mulScalar
            env.mul_constant ∧
        (((PostProcessAux env t down dl res).2 q).exact_refs : Multiset ℕ) +
          (((PostProcessAux env t down dl res).2 q).pruned_refs :
            Multiset ℕ) =
          accM t q res + ↑down.pruned_refs) := by
  intro t
  induction t with
  | leaf ps s =>
    intro down dl res hnodup htok hdok hrok
    obtain ⟨hframe, hmem⟩ := postLoop_spec env
      { s with
        postponed := s.postponed.ApplyPostponed down
        local_expansion := s.local_expansion ++ dl } ps res hnodup
    refine ⟨fun j hj => hframe j hj, ?_, ?_⟩
    · intro j
      by_cases hj : j ∈ ps
      · rw [show (PostProcessAux env (KTree.leaf ps s) down dl res).2 j =
          postLoop env
            { s with
              postponed := s.postponed.ApplyPostponed down
              local_expansion := s.local_expansion ++ dl } ps res j from rfl]
        rw [hmem j hj]
        unfold ResOK QResult.Postprocess QResult.ApplyPostponed
        simp only [QPostponed.ApplyPostponed, List.length_append]
        have h1 : (res j).n_pruned = (res j).pruned_refs.length := hrok j
        have h2 : s.postponed.n_pruned = s.postponed.pruned_refs.length :=
          TreeOK_root htok
        have h3 : down.n_pruned = down.pruned_refs.length := hdok
        omega
      · rw [show (PostProcessAux env (KTree.leaf ps s) down dl res).2 j =
          postLoop env
            { s with
              postponed := s.postponed.ApplyPostponed down
              local_expansion := s.local_expansion ++ dl } ps res j from rfl]
        rw [hframe j hj]
        exact hrok j
    · intro q hq
      have hq' : q ∈ ps := hq
      rw [show (PostProcessAux env (KTree.leaf ps s) down dl res).2 =
        postLoop env
          { s with
            postponed := s.postponed.ApplyPostponed down
            local_expansion := s.local_expansion ++ dl } ps res from rfl]
      rw [hmem q hq]
      constructor
      · show (((res q).ApplyPostponed
          (s.postponed.ApplyPostponed down)).density_range).mulScalar
            env.mul_constant = _
        show (((res q).density_range +
          (s.postponed.ApplyPostponed down).d_density_range)).mulScalar
            env.mul_constant = _
        have hll : ledgerRange (KTree.leaf ps s) q =
            s.postponed.d_density_range := by
          show (if q ∈ ps then s.postponed.d_density_range else 0) = _
          rw [if_pos hq']
        rw [hll]
        show (((res q).density_range +
          (s.postponed.d_density_range + down.d_density_range))).mulScalar
            env.mul_constant = _
        rfl
      · show ((((res q).ApplyPostponed
            (s.postponed.ApplyPostponed down)).exact_refs : Multiset ℕ)) +
          (((res q).ApplyPostponed
            (s.postponed.ApplyPostponed down)).pruned_refs : Multiset ℕ) = _
        show (((res q).exact_refs : Multiset ℕ)) +
          (((res q).pruned_refs ++ (s.postponed.pruned_refs ++
            down.pruned_refs) : List ℕ) : Multiset ℕ) = _
        have hold : ledgerPrunedM (KTree.leaf ps s) q =
            (s.postponed.pruned_refs : Multiset ℕ) := by
          show (if q ∈ ps then (s.postponed.pruned_refs : Multiset ℕ)
            else 0) = _
          rw [if_pos hq']
        unfold accM
        rw [hold]
        simp only [← Multiset.coe_add]
        abel
  | node s l r ihl ihr =>
    intro down dl res hnodup htok hdok hrok
    have hnodups := List.nodup_append.mp (by simpa [KTree.pts] using hnodup)
    have hnl : l.pts.Nodup := hnodups.1
    have hnr : r.pts.Nodup := hnodups.2.1
    have hdisj : ∀ q ∈ l.pts, q ∉ r.pts := fun q hq => hnodups.2.2 hq
    obtain ⟨hsOK, hlOK, hrOK⟩ := htok
    have hdok' : PostOK (s.postponed.ApplyPostponed down) :=
      PostOK_apply hsOK hdok
    obtain ⟨Lframe, Lrok, Lmem⟩ := ihl (s.postponed.ApplyPostponed down)
      (s.local_expansion ++ dl) res hnl hlOK hdok' hrok
    obtain ⟨Rframe, Rrok, Rmem⟩ := ihr (s.postponed.ApplyPostponed down)
      (s.local_expansion ++ dl)
      (PostProcessAux env l (s.postponed.ApplyPostponed down)
        (s.local_expansion ++ dl) res).2 hnr hrOK hdok' Lrok
    have hout : (PostProcessAux env (KTree.node s l r) down dl res).2 =
        (PostProcessAux env r (s.postponed.ApplyPostponed down)
          (s.local_expansion ++ dl)
          (PostProcessAux env l (s.postponed.ApplyPostponed down)
            (s.local_expansion ++ dl) res).2).2 := rfl
    rw [hout]
    refine ⟨?_, Rrok, ?_⟩
    · intro j hj
      simp only [KTree.pts, List.mem_append, not_or] at hj
      rw [Rframe j hj.2, Lframe j hj.1]
    · intro q hq
      simp only [KTree.pts, List.mem_append] at hq
      rcases hq with hq | hq
      · have hqr : q ∉ r.pts := hdisj q hq
        obtain ⟨hrange, hghost⟩ := Lmem q hq
        rw [Rframe q hqr]
        constructor
        · rw [hrange, ledgerRange_node_left hq hqr]
          show ((res q).density_range + (ledgerRange l q +
            (s.postponed.d_density_range + down.d_density_range))).mulScalar
              env.mul_constant = _
          rw [show ledgerRange l q + (s.postponed.d_density_range +
            down.d_density_range) = (ledgerRange l q +
              s.postponed.d_density_range) + down.d_density_range from by
            abel]
        · rw [hghost, accM_node_left hq hqr]
          show accM l q res + ↑(s.postponed.pruned_refs ++
            down.pruned_refs) = _
          simp only [← Multiset.coe_add]
          abel
      · have hql : q ∉ l.pts := fun hl' => hdisj q hl' hq
        obtain ⟨hrange, hghost⟩ := Rmem q hq
        have hLq : (PostProcessAux env l (s.postponed.ApplyPostponed down)
            (s.local_expansion ++ dl) res).2 q = res q := Lframe q hql
        constructor
        · rw [hrange, hLq, ledgerRange_node_right hq hql]
          show ((res q).density_range + (ledgerRange r q +
            (s.postponed.d_density_range + down.d_density_range))).mulScalar
              env.mul_constant = _
          rw [show ledgerRange r q + (s.postponed.d_density_range +
            down.d_density_range) = (ledgerRange r q +
              s.postponed.d_density_range) + down.d_density_range from by
            abel]
        · rw [hghost, accM_congr_at hLq, accM_node_right hq hql]
          show accM r q res + ↑(s.postponed.pruned_refs ++
            down.pruned_refs) = _
          simp only [← Multiset.coe_add]
          abel

/-! ### The result reshuffle -/

theorem shuffleWrite_frame (res : Results) (ofn : ℕ → ℕ) :
    ∀ (is : List ℕ) (tmp : Results) (k : ℕ),
      (∀ i ∈ is, ofn i ≠ k) → shuffleWrite res ofn is tmp k = tmp k := by
  intro is
  induction is with
  | nil => intro tmp k _; rfl
  | cons a as ih =>
    intro tmp k hk
    rw [show shuffleWrite res ofn (a :: as) tmp =
      shuffleWrite res ofn as (upd tmp (ofn a) (res a)) from rfl]
    rw [ih _ k (fun i hi => hk i (List.mem_cons_of_mem a hi))]
    exact upd_other _ _ (fun h =>
      hk a (List.mem_cons_self a as) (h ▸ rfl))

theorem shuffleWrite_get (res : Results) (ofn : ℕ → ℕ) :
    ∀ (is : List ℕ) (tmp : Results) (i : ℕ), i ∈ is → is.Nodup →
      (∀ a ∈ is, ∀ b ∈ is, ofn a = ofn b → a = b) →
      shuffleWrite res ofn is tmp (ofn i) = res i := by
  intro is
  induction is with
  | nil => intro _ i hi; exact absurd hi (by simp)
  | cons a as ih =>
    intro tmp i hi hnodup hinj
    have ha_notin : a ∉ as := (List.nodup_cons.mp hnodup).1
    have hnodup' : as.Nodup := (List.nodup_cons.mp hnodup).2
    rw [show shuffleWrite res ofn (a :: as) tmp =
      shuffleWrite res ofn as (upd tmp (ofn a) (res a)) from rfl]
    rcases List.mem_cons.mp hi with h | h
    · subst h
      rw [shuffleWrite_frame res ofn as _ (ofn i) (fun b hb he =>
        ha_notin (by
          rw [hinj b (List.mem_cons_of_mem i hb) i
            (List.mem_cons_self i as) he] at hb
          exact hb))]
      exact upd_same _ _ _
    · exact ih _ i h hnodup' (fun x hx y hy =>
        hinj x (List.mem_cons_of_mem a hx) y (List.mem_cons_of_mem a hy))

theorem shuffleRead_frame (tmp : Results) :
    ∀ (is : List ℕ) (res : Results) (j : ℕ), j ∉ is →
      shuffleRead tmp is res j = res j := by
  intro is
  induction is with
  | nil => intro res j _; rfl
  | cons a as ih =>
    intro res j hj
    rw [show shuffleRead tmp (a :: as) res =
      shuffleRead tmp as (upd res a (tmp a)) from rfl]
    rw [ih _ j (fun h => hj (List.mem_cons_of_mem a h))]
    exact upd_other _ _ (fun h => hj (h ▸ List.mem_cons_self a as))

theorem shuffleRead_get (tmp : Results) :
    ∀ (is : List ℕ) (res : Results) (i : ℕ), i ∈ is →
      shuffleRead tmp is res i = tmp i := by
  intro is
  induction is with
  | nil => intro _ i hi; exact absurd hi (by simp)
  | cons a as ih =>
    intro res i hi
    rw [show shuffleRead tmp (a :: as) res =
      shuffleRead tmp as (upd res a (tmp a)) from rfl]
    by_cases h : i ∈ as
    · exact ih _ i h
    · have hia : i = a := by
        rcases List.mem_cons.mp hi with h' | h'
        · exact h'
        · exact absurd h' h
      subst hia
      rw [shuffleRead_frame tmp as _ i h]
      exact upd_same _ _ _

theorem contrib_perm (env : Env P) (q : ℕ) {as bs : List ℕ}
    (h : as.Perm bs) : contrib env q as = contrib env q bs :=
  (h.map _).sum_eq

/-- The exclusion-test-or-traverse stage at the root of `Compute`:
starting from freshly initialized trees and results, every query point
of the query tree ends up with an effective interval containing the
reference tree's exact contribution and with every reference point
accounted exactly once. -/
theorem rootStage_spec (env : Env P) (hker : KerOK env) (fuel : ℕ)
    (QP RP : KTree P) (res0 : Results)
    (hgeom : GeomOK env QP RP)
    (hnodup : QP.pts.Nodup)
    (hfuel : QP.height + RP.height < fuel)
    (hres0 : ∀ j, res0 j = QResult.Init)
    (hT : TreeOK QP)
    (hled : ∀ x, ledgerRange QP x = 0)
    (hledM : ∀ x, ledgerPrunedM QP x = 0)
    (out : KTree P × Results)
    (hout : out = if (IntrinsicPrunable env QP RP).1
      then ((IntrinsicPrunable env QP RP).2.1, res0)
      else FKde env fuel (IntrinsicPrunable env QP RP).2.1 RP
        (IntrinsicPrunable env QP RP).2.2 QSummaryResult.Init res0) :
    ShapeEq QP out.1 ∧ TreeOK out.1 ∧ (∀ j, ResOK (out.2 j)) ∧
    (∀ x ∈ QP.pts, memR (contrib env x RP.pts) (eff out.1 x out.2) ∧
      accM out.1 x out.2 = ↑RP.pts) := by
  have heff0 : ∀ x, eff QP x res0 = 0 := by
    intro x
    unfold eff
    rw [hres0 x, hled x]
    show QResult.Init.density_range + 0 = 0
    rw [add_zero]
    rfl
  have hacc0 : ∀ x, accM QP x res0 = 0 := by
    intro x
    unfold accM
    rw [hres0 x, hledM x]
    show ((([] : List ℕ) : Multiset ℕ)) + ((([] : List ℕ) : Multiset ℕ)) +
      0 = 0
    simp
  cases hb : (IntrinsicPrunable env QP RP).1 with
  | false =>
    rw [if_neg (by intro hc; rw [hb] at hc; exact Bool.false_ne_true hc)]
      at hout
    rw [IntrinsicPrunable_false_tree hb] at hout
    subst hout
    obtain ⟨hsh, htok, hrok, hframe, hadv, hacc⟩ :=
      FKde_spec env hker fuel QP RP (IntrinsicPrunable env QP RP).2.2
        QSummaryResult.Init res0 hgeom hnodup hfuel
        (IntrinsicPrunable_delta_sound env hker hgeom) hT
        (fun j => by rw [hres0 j]; rfl)
    refine ⟨hsh, htok, hrok, ?_⟩
    intro x hx
    constructor
    · have h0 : memR 0 (eff QP x res0) := by
        rw [heff0 x]
        exact ⟨le_refl 0, le_refl 0⟩
      have := hadv x hx 0 h0
      rwa [zero_add] at this
    · have := hacc x hx
      rwa [hacc0 x, zero_add] at this
  | true =>
    rw [if_pos (by rw [hb])] at hout
    subst hout
    obtain ⟨hupd, hhi⟩ := IntrinsicPrunable_true_spec hb
    rw [hupd]
    have hPost : PostOK QP.stat.postponed := TreeOK_root hT
    refine ⟨ShapeEq.updStat _ _, ?_,
      fun j => by show ResOK (res0 j); rw [hres0 j]; rfl, ?_⟩
    · refine TreeOK_updStat hT _ ?_
      show QP.stat.postponed.n_pruned + RP.count =
        (QP.stat.postponed.pruned_refs ++ RP.pts).length
      rw [List.length_append, hPost]
      rfl
    · intro x hx
      constructor
      · rw [eff_updStat_keep hx _ rfl res0, heff0 x,
          IntrinsicPrunable_true_contrib_zero env hker hgeom hb x hx]
        exact ⟨le_refl 0, le_refl 0⟩
      · rw [accM_updStat_add hx _ RP.pts rfl res0, hacc0 x, zero_add]

/-- End-to-end per-query-point guarantee of `Compute`: the final
density interval contains the normalized exact contribution of the
reference tree, and the ghost accounting lists show every reference
point of the reference tree exactly once, with the `n_pruned` tally
matching. -/
theorem Compute_final_spec (env : Env P) (fuel : ℕ) (qroot rroot : KTree P)
    (res0 : Results) (ofn : ℕ → ℕ) (junk : Results)
    (hker : KerOK env) (hgeom : GeomOK env qroot rroot)
    (hnodup : qroot.pts.Nodup)
    (hfuel : qroot.height + rroot.height < fuel)
    (hres0 : ∀ j, res0 j = QResult.Init)
    (hmul : 0 ≤ env.mul_constant)
    (hqlt : ∀ x ∈ qroot.pts, x < env.query_count)
    (hofn_lt : ∀ i, i < env.query_count → ofn i < env.query_count)
    (hofn_inj : ∀ a, a < env.query_count → ∀ b, b < env.query_count →
      ofn a = ofn b → a = b) :
    ∀ q ∈ qroot.pts,
      memR (env.mul_constant * contrib env q rroot.pts)
        (((Compute env fuel qroot rroot res0 ofn junk).2
          (ofn q)).density_range) ∧
      (((Compute env fuel qroot rroot res0 ofn junk).2
          (ofn q)).exact_refs : Multiset ℕ) +
        (((Compute env fuel qroot rroot res0 ofn junk).2
          (ofn q)).pruned_refs : Multiset ℕ) =
        (rroot.pts : Multiset ℕ) ∧
      ((Compute env fuel qroot rroot res0 ofn junk).2 (ofn q)).n_pruned =
        ((Compute env fuel qroot rroot res0 ofn junk).2
          (ofn q)).pruned_refs.length := by
  intro q hq
  have hshapeQ := preProcess_shape env qroot
  have hshapeR := preProcess_shape env rroot
  have hqpts : (PreProcess env qroot).pts = qroot.pts := hshapeQ.pts_eq.symm
  have hrpts : (PreProcess env rroot).pts = rroot.pts := hshapeR.pts_eq.symm
  have hgeom' : GeomOK env (PreProcess env qroot) (PreProcess env rroot) :=
    (hgeom.shape_left hshapeQ).shape_right hshapeR
  have hq' : q ∈ (PreProcess env qroot).pts := by rw [hqpts]; exact hq
  set out := if (IntrinsicPrunable env (PreProcess env qroot)
      (PreProcess env rroot)).1
    then ((IntrinsicPrunable env (PreProcess env qroot)
      (PreProcess env rroot)).2.1, res0)
    else FKde env fuel
      (IntrinsicPrunable env (PreProcess env qroot)
        (PreProcess env rroot)).2.1
      (PreProcess env rroot)
      (IntrinsicPrunable env (PreProcess env qroot)
        (PreProcess env rroot)).2.2
      QSummaryResult.Init res0 with hout
  obtain ⟨hSh, hT1, hR1, hpt⟩ := rootStage_spec env hker fuel
    (PreProcess env qroot) (PreProcess env rroot) res0 hgeom'
    (by rw [hqpts]; exact hnodup)
    (by rw [← hshapeQ.height_eq, ← hshapeR.height_eq]; exact hfuel)
    hres0 (preProcess_treeOK env qroot) (preProcess_ledgerRange env qroot)
    (preProcess_ledgerPrunedM env qroot) out hout
  have hq'' : q ∈ out.1.pts := by rw [← hSh.pts_eq]; exact hq'
  have hnodupOut : out.1.pts.Nodup := by
    rw [← hSh.pts_eq, hqpts]; exact hnodup
  obtain ⟨hmemq, haccq⟩ := hpt q hq'
  obtain ⟨Pfr, Prok, Pmem⟩ := PostProcessAux_spec env out.1
    QPostponed.Reset [] out.2 hnodupOut hT1 PostOK_reset hR1
  obtain ⟨hrange, hghost⟩ := Pmem q hq''
  have hqlt' : q < env.query_count := hqlt q hq
  have hofnq : ofn q < env.query_count := hofn_lt q hqlt'
  have hfin : (Compute env fuel qroot rroot res0 ofn junk).2 =
      shuffleRead
        (shuffleWrite (PostProcessAux env out.1 QPostponed.Reset []
          out.2).2 ofn (List.range env.query_count) junk)
        (List.range env.query_count)
        (PostProcessAux env out.1 QPostponed.Reset [] out.2).2 := rfl
  have hfin_at : (Compute env fuel qroot rroot res0 ofn junk).2 (ofn q) =
      (PostProcessAux env out.1 QPostponed.Reset [] out.2).2 q := by
    rw [hfin,
      shuffleRead_get _ _ _ (ofn q) (List.mem_range.mpr hofnq)]
    exact shuffleWrite_get _ ofn _ junk q (List.mem_range.mpr hqlt')
      (List.nodup_range _)
      (fun a ha b hb hab =>
        hofn_inj a (List.mem_range.mp ha) b (List.mem_range.mp hb) hab)
  rw [hfin_at]
  refine ⟨?_, ?_, Prok q⟩
  · rw [hrange,
      show (QPostponed.Reset : QPostponed).d_density_range = 0 from rfl,
      add_zero,
      show (out.2 q).density_range + ledgerRange out.1 q =
        eff out.1 q out.2 from rfl]
    rw [hrpts] at hmemq
    exact memR_mulScalar hmul hmemq
  · rw [hghost, haccq,
      show ((QPostponed.Reset : QPostponed).pruned_refs : Multiset ℕ) = 0
        from rfl,
      add_zero, hrpts]

/-! ### Local functional-correctness claims -/

/-- C3: in every pruning decision, the allowed per-reference-point
absolute error is
`(relativeError * lowerDensityBound - usedError) / (referenceCount - nPruned)`:
the `allowed_err` passed to the series-expansion order queries is
exactly this quantity, and the `allocated_error` of the
finite-difference test is exactly this quantity multiplied by the
reference node's point count, so that the finite-difference test
compares half the delta width against the per-reference budget times
the reference node's count. -/
theorem C3_error_budget (env : Env P) (rcount : ℕ) (mu : QSummaryResult)
    (qnode rnode : KTree P) (delta : Delta) (res : Results) :
    allowedErr env mu =
      (env.relative_error * mu.density_range.lo - mu.used_error) /
        ((env.reference_count : ℚ) - (mu.n_pruned : ℚ)) ∧
    allocatedError env rcount mu = allowedErr env mu * rcount ∧
    ExtrinsicPrunable env qnode rnode delta mu res =
      (if delta.d_density_range.width / 2 ≤ allowedErr env mu * rnode.count then
        some
          (qnode.updStat (fun s =>
            { s with postponed :=
              { d_density_range := s.postponed.d_density_range + delta.d_density_range
                finite_diff_range := s.postponed.finite_diff_range + delta.d_density_range
                used_error := s.postponed.used_error + delta.d_density_range.width / 2
                n_pruned := s.postponed.n_pruned + rnode.count
                pruned_refs := s.postponed.pruned_refs ++ rnode.pts } }),
          res)
      else ExtrinsicPrunableSeriesExpansion env qnode rnode delta mu res) := by
  have hmul : allocatedError env rcount mu = allowedErr env mu * rcount := by
    unfold allocatedError allowedErr
    ring
  refine ⟨rfl, hmul, ?_⟩
  unfold ExtrinsicPrunable
  rw [show allocatedError env rnode.count mu = allowedErr env mu * rnode.count
    from by unfold allocatedError allowedErr; ring]

/-- C5: `IntrinsicPrunable` computes the squared-distance range of the
pair and the kernel's range over it scaled by the reference count; it
reports exclusion (`true`) precisely when the upper density bound is
exactly zero, in which case it only adds the reference count to the
query node's postponed pruned tally; otherwise it reports `false`
leaving the query node unchanged and the computed ranges in the
output `Delta`. -/
theorem C5_intrinsic_exclusion (env : Env P) (qnode rnode : KTree P) :
    IntrinsicPrunable env qnode rnode =
      (let dsqd := env.dRange qnode.pts rnode.pts
       let dd := (rangeUnnormOnSq env.ker dsqd).scale rnode.count
       if dd.hi = 0 then
        (true,
          qnode.updStat (fun s =>
            { s with postponed :=
              { s.postponed with
                n_pruned := s.postponed.n_pruned + rnode.count
                pruned_refs := s.postponed.pruned_refs ++ rnode.pts } }),
          (⟨dsqd, dd⟩ : Delta))
       else (false, qnode, (⟨dsqd, dd⟩ : Delta))) ∧
    ((IntrinsicPrunable env qnode rnode).1 = true ↔
      ((rangeUnnormOnSq env.ker (env.dRange qnode.pts rnode.pts)).scale
        rnode.count).hi = 0) := by
  have key : IntrinsicPrunable env qnode rnode =
      (let dsqd := env.dRange qnode.pts rnode.pts
       let dd := (rangeUnnormOnSq env.ker dsqd).scale rnode.count
       if dd.hi = 0 then
        (true,
          qnode.updStat (fun s =>
            { s with postponed :=
              { s.postponed with
                n_pruned := s.postponed.n_pruned + rnode.count
                pruned_refs := s.postponed.pruned_refs ++ rnode.pts } }),
          (⟨dsqd, dd⟩ : Delta))
       else (false, qnode, (⟨dsqd, dd⟩ : Delta))) := by
    unfold IntrinsicPrunable
    by_cases h :
        ((rangeUnnormOnSq env.ker (env.dRange qnode.pts rnode.pts)).scale
          rnode.count).hi = 0
    · rw [if_neg (fun hk => hk h), if_pos h]
    · rw [if_pos h, if_neg h]
  refine ⟨key, ?_⟩
  rw [key]
  by_cases h :
      ((rangeUnnormOnSq env.ker (env.dRange qnode.pts rnode.pts)).scale
        rnode.count).hi = 0
  · rw [if_pos h]
    simpa using h
  · rw [if_neg h]
    simpa using h

/-- C10: when `IntrinsicPrunable` performs an exclusion prune, the only
state it changes is the query node's postponed `n_pruned` tally (plus
the ghost list recording which reference points that tally covers): the
postponed density interval, finite-difference accumulator and used
error, the node's summary result, its expansions and its children are
all left unchanged.  (The per-point results are untouched by
construction: the function does not receive them.) -/
theorem C10_exclusion_frame (env : Env P) (qnode rnode : KTree P)
    (h : (IntrinsicPrunable env qnode rnode).1 = true) :
    ((IntrinsicPrunable env qnode rnode).2.1.stat.summary_result =
        qnode.stat.summary_result) ∧
    ((IntrinsicPrunable env qnode rnode).2.1.stat.postponed.d_density_range =
        qnode.stat.postponed.d_density_range) ∧
    ((IntrinsicPrunable env qnode rnode).2.1.stat.postponed.finite_diff_range =
        qnode.stat.postponed.finite_diff_range) ∧
    ((IntrinsicPrunable env qnode rnode).2.1.stat.postponed.used_error =
        qnode.stat.postponed.used_error) ∧
    ((IntrinsicPrunable env qnode rnode).2.1.stat.postponed.n_pruned =
        qnode.stat.postponed.n_pruned + rnode.count) ∧
    ((IntrinsicPrunable env qnode rnode).2.1.stat.farfield_expansion =
        qnode.stat.farfield_expansion) ∧
    ((IntrinsicPrunable env qnode rnode).2.1.stat.local_expansion =
        qnode.stat.local_expansion) ∧
    ((IntrinsicPrunable env qnode rnode).2.1.updStat (fun _ => qnode.stat) =
        qnode) := by
  unfold IntrinsicPrunable at h ⊢
  by_cases hz :
      ((rangeUnnormOnSq env.ker (env.dRange qnode.pts rnode.pts)).scale
        rnode.count).hi = 0
  · rw [if_neg (fun hk => hk hz)] at h ⊢
    refine ⟨?_, ?_, ?_, ?_, ?_, ?_, ?_, ?_⟩ <;> cases qnode <;> rfl
  · rw [if_pos hz] at h
    exact absurd h (by simp)

/-- C4: if half the width of the pair's density-range delta is at most
the per-reference error budget times the reference node's count, then
`ExtrinsicPrunable` adds the full delta range to both the postponed
density interval and the postponed finite-difference accumulator,
charges half the delta width as used error, accounts the reference
node's count as pruned, and succeeds — independently of the three
series-expansion order oracles, which are never consulted.  Moreover
`QResult::ApplyPostponed` later adds the midpoint of the postponed
finite-difference accumulator to the point estimate. -/
theorem C4_finite_difference_prune (env : Env P) (qnode rnode : KTree P)
    (delta : Delta) (mu : QSummaryResult) (res : Results)
    (h : delta.d_density_range.width / 2 ≤ allocatedError env rnode.count mu) :
    (∀ o1 o2 o3,
      ExtrinsicPrunable
          { env with orderF2L := o1, orderFF := o2, orderLoc := o3 }
          qnode rnode delta mu res =
        some
          (qnode.updStat (fun s =>
            { s with postponed :=
              { d_density_range :=
                  s.postponed.d_density_range + delta.d_density_range
                finite_diff_range :=
                  s.postponed.finite_diff_range + delta.d_density_range
                used_error :=
                  s.postponed.used_error + delta.d_density_range.width / 2
                n_pruned := s.postponed.n_pruned + rnode.count
                pruned_refs := s.postponed.pruned_refs ++ rnode.pts } }),
          res)) ∧
    (∀ (rq : QResult) (p : QPostponed),
      (rq.ApplyPostponed p).density_estimate =
        rq.density_estimate +
          (1 / 2) * (p.finite_diff_range.lo + p.finite_diff_range.hi)) := by
  refine ⟨?_, fun rq p => rfl⟩
  intro o1 o2 o3
  unfold ExtrinsicPrunable
  rw [show allocatedError
      { env with orderF2L := o1, orderFF := o2, orderLoc := o3 }
      rnode.count mu = allocatedError env rnode.count mu from rfl]
  rw [if_pos h]

/-- Witness for C4: a concrete pair whose delta has zero width is
finite-difference pruned. -/
theorem C4_finite_difference_prune_witness :
    ∃ (env : Env ℚ) (qnode rnode : KTree ℚ) (delta : Delta)
      (mu : QSummaryResult) (res : Results),
      delta.d_density_range.width / 2 ≤ allocatedError env rnode.count mu ∧
      ExtrinsicPrunable env qnode rnode delta mu res =
        some
          (qnode.updStat (fun s =>
            { s with postponed :=
              { d_density_range :=
                  s.postponed.d_density_range + delta.d_density_range
                finite_diff_range :=
                  s.postponed.finite_diff_range + delta.d_density_range
                used_error :=
                  s.postponed.used_error + delta.d_density_range.width / 2
                n_pruned := s.postponed.n_pruned + rnode.count
                pruned_refs := s.postponed.pruned_refs ++ rnode.pts } }),
          res) := by
  refine ⟨⟨1, 1, 1, 1, 1, 0, 1000, fun _ => 1, fun a b => (a - b) ^ 2,
    fun _ => 0, fun _ => 0, fun _ => 1, fun _ _ => ⟨0, 1⟩, fun _ _ => 0,
    fun _ _ _ _ _ => (-1, 0), fun _ _ _ _ _ => (-1, 0),
    fun _ _ _ _ _ => (-1, 0), fun _ _ _ => 0, fun _ _ => 0⟩,
    .leaf [0] ⟨QSummaryResult.Init, QPostponed.Reset, [], []⟩,
    .leaf [0] ⟨QSummaryResult.Init, QPostponed.Reset, [], []⟩,
    ⟨⟨0, 1⟩, ⟨1, 1⟩⟩, QSummaryResult.Init, fun _ => QResult.Init, ?_, ?_⟩
  · show ((1 : ℚ) - 1) / 2 ≤ ((1 : ℚ) * 0 - 0) * (1 : ℕ) / ((1 : ℚ) - (0 : ℕ))
    norm_num
  · have h : (⟨⟨0, 1⟩, ⟨1, 1⟩⟩ : Delta).d_density_range.width / 2 ≤
        allocatedError
          (⟨1, 1, 1, 1, 1, 0, 1000, fun _ => 1, fun a b => (a - b) ^ 2,
            fun _ => 0, fun _ => 0, fun _ => 1, fun _ _ => ⟨0, 1⟩,
            fun _ _ => 0, fun _ _ _ _ _ => (-1, 0), fun _ _ _ _ _ => (-1, 0),
            fun _ _ _ _ _ => (-1, 0), fun _ _ _ => 0, fun _ _ => 0⟩ : Env ℚ)
          (KTree.leaf [0]
            (⟨QSummaryResult.Init, QPostponed.Reset, [], []⟩ : KdeStat ℚ)).count
          QSummaryResult.Init := by
      show ((1 : ℚ) - 1) / 2 ≤ ((1 : ℚ) * 0 - 0) * (1 : ℕ) / ((1 : ℚ) - (0 : ℕ))
      norm_num
    simpa using
      (C4_finite_difference_prune _ _ _ _ _ _ h).1
        (fun _ _ _ _ _ => (-1, 0)) (fun _ _ _ _ _ => (-1, 0))
        (fun _ _ _ _ _ => (-1, 0))

/-- C8: the series-expansion decision estimates each feasible
strategy's cost as `(order+1)^(k*dimension)` — `k = 2` and no point
scaling for farfield-to-local translation, `k = 1` scaled by the query
count for farfield evaluation, `k = 1` scaled by the reference count
for local accumulation — compares them and the exhaustive cost
`queryCount * referenceCount * dimension`, and applies the cheapest of
the four options (ties broken in the order farfield-to-local, farfield,
local, exhaustive; an infeasible strategy costs `INT_MAX`). -/
theorem C8_series_cost_model (env : Env P) (qnode rnode : KTree P)
    (delta : Delta) (mu : QSummaryResult) (res : Results) :
    (let cost_exhaustive : ℤ := qnode.count * rnode.count * env.dimension
     let f2l := env.orderF2L rnode.pts qnode.pts
       delta.dsqd_range.lo delta.dsqd_range.hi (allowedErr env mu)
     let ff := env.orderFF rnode.pts qnode.pts
       delta.dsqd_range.lo delta.dsqd_range.hi (allowedErr env mu)
     let lc := env.orderLoc rnode.pts qnode.pts
       delta.dsqd_range.lo delta.dsqd_range.hi (allowedErr env mu)
     let cost_farfield_to_local : ℤ :=
       if 0 ≤ f2l.1 then (f2l.1 + 1) ^ (2 * env.dimension) else intMax
     let cost_farfield : ℤ :=
       if 0 ≤ ff.1 then (ff.1 + 1) ^ env.dimension * qnode.count else intMax
     let cost_local : ℤ :=
       if 0 ≤ lc.1 then (lc.1 + 1) ^ env.dimension * rnode.count else intMax
     let min_cost := min cost_farfield_to_local
       (min cost_farfield (min cost_local cost_exhaustive))
     (min_cost ≤ cost_farfield_to_local ∧ min_cost ≤ cost_farfield ∧
      min_cost ≤ cost_local ∧ min_cost ≤ cost_exhaustive) ∧
     ExtrinsicPrunableSeriesExpansion env qnode rnode delta mu res =
       (if cost_farfield_to_local = min_cost then
         some
           (qnode.updStat (fun s =>
             { s with
               postponed :=
                 { s.postponed with
                   d_density_range :=
                     s.postponed.d_density_range + delta.d_density_range
                   used_error := s.postponed.used_error + rnode.count * f2l.2
                   n_pruned := s.postponed.n_pruned + rnode.count
                   pruned_refs := s.postponed.pruned_refs ++ rnode.pts }
               local_expansion := s.local_expansion ++
                 [LocAcc.fromFF rnode.stat.farfield_expansion f2l.1] }),
           res)
       else if cost_farfield = min_cost then
         some
           (qnode.updStat (fun s =>
             { s with
               postponed :=
                 { s.postponed with
                   d_density_range :=
                     s.postponed.d_density_range + delta.d_density_range
                   used_error := s.postponed.used_error + rnode.count * ff.2
                   n_pruned := s.postponed.n_pruned + rnode.count
                   pruned_refs := s.postponed.pruned_refs ++ rnode.pts } }),
           addFFEval env rnode.stat.farfield_expansion ff.1 qnode.pts res)
       else if cost_local = min_cost then
         some
           (qnode.updStat (fun s =>
             { s with
               postponed :=
                 { s.postponed with
                   d_density_range :=
                     s.postponed.d_density_range + delta.d_density_range
                   used_error := s.postponed.used_error + rnode.count * lc.2
                   n_pruned := s.postponed.n_pruned + rnode.count
                   pruned_refs := s.postponed.pruned_refs ++ rnode.pts }
               local_expansion := s.local_expansion ++
                 [LocAcc.fromPoints rnode.pts lc.1] }),
           res)
       else none)) := by
  refine ⟨⟨min_le_left _ _, ?_, ?_, ?_⟩, rfl⟩
  · exact le_trans (min_le_right _ _) (min_le_left _ _)
  · exact le_trans (min_le_right _ _)
      (le_trans (min_le_right _ _) (min_le_left _ _))
  · exact le_trans (min_le_right _ _)
      (le_trans (min_le_right _ _) (min_le_right _ _))

/-- C6: when pruning fails on a non-leaf/leaf pair, `FKde` splits the
query side exactly when the reference node is a leaf, or the query
node's point count is at least the reference node's and the query node
is not a leaf; otherwise it splits the reference side. -/
theorem C6_split_side (env : Env P) (fuel : ℕ) (qnode rnode : KTree P)
    (delta : Delta) (unvisited : QSummaryResult) (res : Results)
    (hprune : ExtrinsicPrunable env qnode rnode delta
      (muOf qnode delta unvisited) res = none)
    (hleaf : ¬(qnode.isLeaf = true ∧ rnode.isLeaf = true)) :
    FKde env (fuel + 1) qnode rnode delta unvisited res =
      if rnode.isLeaf = true ∨
          (rnode.count ≤ qnode.count ∧ qnode.isLeaf = false) then
        FKdeQuerySplit env (FKde env fuel) qnode rnode delta unvisited res
      else
        FKdeRefSplit env (FKde env fuel) qnode rnode delta unvisited res := by
  have hb : ((rnode.isLeaf ||
      (decide (rnode.count ≤ qnode.count) && !qnode.isLeaf)) = true) ↔
      (rnode.isLeaf = true ∨
        (rnode.count ≤ qnode.count ∧ qnode.isLeaf = false)) := by
    simp [Bool.or_eq_true, Bool.and_eq_true, Bool.not_eq_true']
  have hleaf' : ¬((qnode.isLeaf && rnode.isLeaf) = true) := by
    simpa [Bool.and_eq_true] using hleaf
  by_cases hc : rnode.isLeaf = true ∨
      (rnode.count ≤ qnode.count ∧ qnode.isLeaf = false)
  · rw [if_pos hc]
    simp only [FKde, hprune]
    rw [if_neg hleaf', if_pos (hb.mpr hc)]
  · rw [if_neg hc]
    simp only [FKde, hprune]
    rw [if_neg hleaf', if_neg (fun hk => hc (hb.mp hk))]

/-- On the concrete witness instance, extrinsic pruning fails. -/
theorem envW_prune_fails :
    ExtrinsicPrunable envW qnW rnW deltaW
      (muOf qnW deltaW QSummaryResult.Init) resW = none := by
  unfold ExtrinsicPrunable ExtrinsicPrunableSeriesExpansion
  rw [if_neg ?halloc]
  case halloc =>
    show ¬(deltaW.d_density_range.width / 2 ≤ _)
    norm_num [allocatedError, muOf, deltaW, qnW, rnW, statW,
      QSummaryResult.ApplyDelta, QSummaryResult.ApplySummaryResult,
      QSummaryResult.ApplyPostponed, QSummaryResult.Init, QPostponed.Reset,
      KTree.stat, DRange.width, envW]
  rw [if_neg ?h1, if_neg ?h2, if_neg ?h3]
  case h1 => norm_num [intMax, envW, qnW, rnW, KTree.count, KTree.pts]
  case h2 => norm_num [intMax, envW, qnW, rnW, KTree.count, KTree.pts]
  case h3 => norm_num [intMax, envW, qnW, rnW, KTree.count, KTree.pts]

/-- Witness for C6: a concrete non-leaf/leaf pair on which extrinsic
pruning fails and the query side is split. -/
theorem C6_split_side_witness :
    ExtrinsicPrunable envW qnW rnW deltaW
      (muOf qnW deltaW QSummaryResult.Init) resW = none ∧
    ¬(qnW.isLeaf = true ∧ rnW.isLeaf = true) ∧
    FKde envW 1 qnW rnW deltaW QSummaryResult.Init resW =
      FKdeQuerySplit envW (FKde envW 0) qnW rnW deltaW
        QSummaryResult.Init resW := by
  have hleaf : ¬(qnW.isLeaf = true ∧ rnW.isLeaf = true) := by
    simp [qnW, KTree.isLeaf]
  refine ⟨envW_prune_fails, hleaf, ?_⟩
  rw [C6_split_side envW 0 qnW rnW deltaW QSummaryResult.Init resW
    envW_prune_fails hleaf]
  rw [if_pos (Or.inr ⟨by norm_num [qnW, rnW, KTree.count, KTree.pts], rfl⟩)]

/-- C7 (amended): on a reference-side split where neither child is
exclusion-pruned, the recursion visits the child nearer by
`Heuristic` (= `MinToMidSq` of the reference child's bound against the
query bound's midpoint) first; the *first-visited, nearer* child's
recursion receives the caller's unvisited summary tightened by adding
the *other (farther)* child's delta, and the *farther* child's
recursion, performed second, receives the caller's unvisited summary
unchanged. -/
theorem C7_ref_split_order (env : Env P) (rec : FKdeRec P) (qnode : KTree P)
    (rstat : KdeStat P) (rl rr : KTree P) (delta : Delta)
    (unvisited : QSummaryResult) (res : Results)
    (h1 : (IntrinsicPrunable env qnode rl).1 = false)
    (h2 : (IntrinsicPrunable env qnode rr).1 = false) :
    (Heuristic env qnode rl = env.minToMidSq rl.pts qnode.pts ∧
     Heuristic env qnode rr = env.minToMidSq rr.pts qnode.pts) ∧
    FKdeRefSplit env rec qnode (.node rstat rl rr) delta unvisited res =
      (if Heuristic env qnode rl ≤ Heuristic env qnode rr then
        let out := rec qnode rl (IntrinsicPrunable env qnode rl).2.2
          (unvisited.ApplyDelta (IntrinsicPrunable env qnode rr).2.2) res
        rec out.1 rr (IntrinsicPrunable env qnode rr).2.2 unvisited out.2
      else
        let out := rec qnode rr (IntrinsicPrunable env qnode rr).2.2
          (unvisited.ApplyDelta (IntrinsicPrunable env qnode rl).2.2) res
        rec out.1 rl (IntrinsicPrunable env qnode rl).2.2 unvisited out.2) := by
  refine ⟨⟨rfl, rfl⟩, ?_⟩
  simp only [FKdeRefSplit, IntrinsicPrunable_false_tree h1,
    IntrinsicPrunable_false_tree h2, h1, h2,
    Bool.false_eq_true, if_false, not_lt, gt_iff_lt]

/-- Counterexample for C7 as stated: in a reference split where
neither child is excluded and the left child `rlC` is nearer, the
*farther* child's recursion receives the caller's unvisited summary
*unchanged*, not tightened by the nearer child's delta: running the
split with a continuation that records the summary it receives, the
final call observes upper bound 0 (the plain empty summary), whereas
the claim's description (farther child receives
`unvisited + nearer delta`, whose upper bound is 1) would produce a
different outcome. -/
theorem C7_unvisited_counterexample :
    (IntrinsicPrunable envC qnW rlC).1 = false ∧
    (IntrinsicPrunable envC qnW rrC).1 = false ∧
    Heuristic envC qnW rlC < Heuristic envC qnW rrC ∧
    ((FKdeRefSplit envC recC qnW (.node statW rlC rrC) deltaW
        QSummaryResult.Init resW).2 0).density_estimate = 0 ∧
    (QSummaryResult.Init.ApplyDelta
        (IntrinsicPrunable envC qnW rlC).2.2).density_range.hi = 1 ∧
    ((recC
        (recC qnW rlC (IntrinsicPrunable envC qnW rlC).2.2
          QSummaryResult.Init resW).1
        rrC (IntrinsicPrunable envC qnW rrC).2.2
        (QSummaryResult.Init.ApplyDelta
          (IntrinsicPrunable envC qnW rlC).2.2)
        (recC qnW rlC (IntrinsicPrunable envC qnW rlC).2.2
          QSummaryResult.Init resW).2).2 0).density_estimate = 1 := by
  refine ⟨?_, ?_, ?_, ?_, ?_, ?_⟩
  · norm_num [IntrinsicPrunable, envC, envW, qnW, rlC, statW,
      rangeUnnormOnSq, DRange.scale, KTree.count, KTree.pts]
  · norm_num [IntrinsicPrunable, envC, envW, qnW, rrC, statW,
      rangeUnnormOnSq, DRange.scale, KTree.count, KTree.pts]
  · norm_num [Heuristic, envC, envW, qnW, rlC, rrC, KTree.pts]
  · norm_num [FKdeRefSplit, IntrinsicPrunable, envC, envW, qnW, rlC, rrC,
      statW, rangeUnnormOnSq, DRange.scale, KTree.count, KTree.pts,
      Heuristic, recC, QSummaryResult.Init, resW]
  · norm_num [IntrinsicPrunable, envC, envW, qnW, rlC, statW,
      rangeUnnormOnSq, DRange.scale, KTree.count, KTree.pts,
      QSummaryResult.ApplyDelta, QSummaryResult.Init]
  · norm_num [IntrinsicPrunable, envC, envW, qnW, rlC, rrC, statW,
      rangeUnnormOnSq, DRange.scale, KTree.count, KTree.pts,
      QSummaryResult.ApplyDelta, QSummaryResult.Init, recC, resW]

/-- Witness for the amended C7 at the concrete instance: the split
visits the nearer child first with the tightened summary. -/
theorem C7_ref_split_order_witness :
    (IntrinsicPrunable envC qnW rlC).1 = false ∧
    (IntrinsicPrunable envC qnW rrC).1 = false ∧
    FKdeRefSplit envC recC qnW (.node statW rlC rrC) deltaW
        QSummaryResult.Init resW =
      (let out := recC qnW rlC (IntrinsicPrunable envC qnW rlC).2.2
        (QSummaryResult.Init.ApplyDelta (IntrinsicPrunable envC qnW rrC).2.2)
        resW
       recC out.1 rrC (IntrinsicPrunable envC qnW rrC).2.2
        QSummaryResult.Init out.2) := by
  have h1 : (IntrinsicPrunable envC qnW rlC).1 = false := by
    norm_num [IntrinsicPrunable, envC, envW, qnW, rlC, statW,
      rangeUnnormOnSq, DRange.scale, KTree.count, KTree.pts]
  have h2 : (IntrinsicPrunable envC qnW rrC).1 = false := by
    norm_num [IntrinsicPrunable, envC, envW, qnW, rrC, statW,
      rangeUnnormOnSq, DRange.scale, KTree.count, KTree.pts]
  refine ⟨h1, h2, ?_⟩
  rw [(C7_ref_split_order envC recC qnW statW rlC rrC deltaW
    QSummaryResult.Init resW h1 h2).2]
  rw [if_pos (by norm_num [Heuristic, envC, envW, qnW, rlC, rrC, KTree.pts])]

/-- C9 (amended): pre-processing, run once on each distinct tree before
traversal (the source pre-processes the reference tree and, when
distinct, the query tree), zeroes every node's ledgers and accumulates
for every leaf the farfield coefficients of the *reference* dataset
and weights at the leaf's own index range at the configured maximum
order — also when the tree being processed is a distinct query tree —
and for every internal node merges both children's farfield expansions
upward, so that every node's farfield expansion holds exactly the
reference-dataset accumulation over its owned index range. -/
theorem C9_preprocess (env : Env P) (t : KTree P) :
    (∀ s ∈ (PreProcess env t).subtrees,
      s.stat.farfield_expansion =
        s.pts.map (fun i => ⟨env.rpt i, env.rweight i, env.maxOrder⟩) ∧
      s.stat.summary_result = QSummaryResult.Init ∧
      s.stat.postponed = QPostponed.Reset ∧
      s.stat.local_expansion = []) ∧
    (∀ (st : KdeStat P) (l r : KTree P),
      KTree.node st l r ∈ (PreProcess env t).subtrees →
      st.farfield_expansion =
        l.stat.farfield_expansion ++ r.stat.farfield_expansion) := by
  induction t with
  | leaf ps s =>
    constructor
    · intro s hs
      simp only [PreProcess, KTree.subtrees, List.mem_singleton] at hs
      subst hs
      exact ⟨rfl, rfl, rfl, rfl⟩
    · intro st l r hmem
      simp [PreProcess, KTree.subtrees] at hmem
  | node s l r ihl ihr =>
    constructor
    · intro s' hs'
      simp only [PreProcess, KTree.subtrees, List.mem_cons,
        List.mem_append] at hs'
      rcases hs' with h | h | h
      · subst h
        refine ⟨?_, rfl, rfl, rfl⟩
        show (PreProcess env l).stat.farfield_expansion ++
            (PreProcess env r).stat.farfield_expansion = _
        rw [(ihl.1 _ (KTree.self_mem_subtrees _)).1,
          (ihr.1 _ (KTree.self_mem_subtrees _)).1]
        simp [KTree.pts, List.map_append]
      · exact ihl.1 s' h
      · exact ihr.1 s' h
    · intro st l' r' hmem
      simp only [PreProcess, KTree.subtrees, List.mem_cons,
        List.mem_append] at hmem
      rcases hmem with h | h | h
      · cases h
        rfl
      · exact ihl.2 st l' r' h
      · exact ihr.2 st l' r' h

/-- Witness for C9 (amended) at a concrete one-leaf tree. -/
theorem C9_preprocess_witness :
    (PreProcess envW (KTree.leaf [0] statW)).stat.farfield_expansion =
      [⟨envW.rpt 0, envW.rweight 0, envW.maxOrder⟩] := by
  have := (C9_preprocess envW (KTree.leaf [0] statW)).1 _
    (KTree.self_mem_subtrees _)
  simpa [PreProcess, KTree.pts] using this.1

/-- Counterexample for C9 as stated: pre-processing a *distinct query
tree* leaf accumulates its farfield coefficients from the *reference*
dataset at the leaf's index range (the source always passes `rset_`
and `rset_weights_` to `RefineCoeffs`), not from the points owned by
the query leaf: for a query leaf owning query point 0 (valued 100),
the accumulated coefficient records reference point 0 (valued 0). -/
theorem C9_query_tree_counterexample :
    (PreProcess envD (KTree.leaf [0] statW)).stat.farfield_expansion =
      [⟨envD.rpt 0, envD.rweight 0, envD.maxOrder⟩] ∧
    envD.rpt 0 ≠ envD.qpt 0 ∧
    (PreProcess envD (KTree.leaf [0] statW)).stat.farfield_expansion ≠
      [⟨envD.qpt 0, envD.rweight 0, envD.maxOrder⟩] := by
  refine ⟨rfl, ?_, ?_⟩
  · show (0 : ℚ) ≠ 100
    norm_num
  · intro h
    rw [show (PreProcess envD (KTree.leaf [0] statW)).stat.farfield_expansion
      = [⟨envD.rpt 0, envD.rweight 0, envD.maxOrder⟩] from rfl] at h
    have h1 : (⟨envD.rpt 0, envD.rweight 0, envD.maxOrder⟩ : FFAcc ℚ) =
        ⟨envD.qpt 0, envD.rweight 0, envD.maxOrder⟩ :=
      List.head_eq_of_cons_eq h
    have h2 : envD.rpt 0 = envD.qpt 0 := congrArg FFAcc.pt h1
    rw [show envD.rpt 0 = (0 : ℚ) from rfl,
      show envD.qpt 0 = (100 : ℚ) from rfl] at h2
    norm_num at h2

/-- Witness for C10 at a concrete exclusion prune (zero kernel). -/
theorem C10_exclusion_frame_witness :
    ∃ env : Env ℚ, ∃ qnode rnode : KTree ℚ,
      (IntrinsicPrunable env qnode rnode).1 = true ∧
      (IntrinsicPrunable env qnode rnode).2.1.stat.postponed.n_pruned =
        qnode.stat.postponed.n_pruned + rnode.count := by
  refine ⟨⟨1, 1, 1, 1, 1, 0, 1000, fun _ => 0, fun a b => (a - b) ^ 2,
    fun _ => 0, fun _ => 0, fun _ => 1, fun _ _ => ⟨0, 1⟩, fun _ _ => 0,
    fun _ _ _ _ _ => (-1, 0), fun _ _ _ _ _ => (-1, 0),
    fun _ _ _ _ _ => (-1, 0), fun _ _ _ => 0, fun _ _ => 0⟩,
    .leaf [0] ⟨QSummaryResult.Init, QPostponed.Reset, [], []⟩,
    .leaf [0] ⟨QSummaryResult.Init, QPostponed.Reset, [], []⟩, ?_, ?_⟩
  · simp [IntrinsicPrunable, rangeUnnormOnSq, DRange.scale]
  · exact (C10_exclusion_frame _ _ _
      (by simp [IntrinsicPrunable, rangeUnnormOnSq, DRange.scale])).2.2.2.2.1

/-- **C1**: for every query point the density interval maintained for
it (its own interval plus all postponed contributions attributable to
it) always contains the exact brute-force density: every traversal
step advances the effective interval by exactly the reference node's
true contribution, and the final output of `Compute` contains the
normalized brute-force density, provided the kernel is non-negative
and non-increasing in squared distance. -/
theorem C1_soundness (env : Env P) (fuel : ℕ) (qroot rroot : KTree P)
    (res0 : Results) (ofn : ℕ → ℕ) (junk : Results)
    (hker : KerOK env) (hgeom : GeomOK env qroot rroot)
    (hnodup : qroot.pts.Nodup)
    (hrroot : rroot.pts.Perm (List.range env.reference_count))
    (hfuel : qroot.height + rroot.height < fuel)
    (hres0 : ∀ j, res0 j = QResult.Init)
    (hmul : 0 ≤ env.mul_constant)
    (hqlt : ∀ x ∈ qroot.pts, x < env.query_count)
    (hofn_lt : ∀ i, i < env.query_count → ofn i < env.query_count)
    (hofn_inj : ∀ a, a < env.query_count → ∀ b, b < env.query_count →
      ofn a = ofn b → a = b) :
    (∀ (B : ℕ) (qnode rnode : KTree P) (delta : Delta)
        (unvisited : QSummaryResult) (res : Results),
      GeomOK env qnode rnode → qnode.pts.Nodup →
      qnode.height + rnode.height < B →
      (∀ x ∈ qnode.pts, memR (contrib env x rnode.pts)
        delta.d_density_range) →
      TreeOK qnode → (∀ j, ResOK (res j)) →
      ∀ x ∈ qnode.pts, ∀ c : ℚ, memR c (eff qnode x res) →
        memR (c + contrib env x rnode.pts)
          (eff (FKde env B qnode rnode delta unvisited res).1 x
            (FKde env B qnode rnode delta unvisited res).2)) ∧
    (∀ q ∈ qroot.pts,
      memR (env.mul_constant * bruteForce env q)
        (((Compute env fuel qroot rroot res0 ofn junk).2
          (ofn q)).density_range)) := by
  constructor
  · intro B qnode rnode delta unvisited res hg hn hh hd ht hr
    exact ((FKde_spec env hker B) qnode rnode delta unvisited res
      hg hn hh hd ht hr).2.2.2.2.1
  · intro q hq
    have h := (Compute_final_spec env fuel qroot rroot res0 ofn junk hker
      hgeom hnodup hfuel hres0 hmul hqlt hofn_lt hofn_inj q hq).1
    rwa [contrib_perm env q hrroot] at h

/-- Closed witness for C1 on the concrete instance: constant kernel,
two query points in a two-leaf tree, one reference point. -/
theorem C1_soundness_witness :
    memR (envW.mul_constant * bruteForce envW 0)
      (((Compute envW 3 qnW rnW resW id resW).2 (id 0)).density_range) :=
  (C1_soundness envW 3 qnW rnW resW id resW
    ⟨fun x => by norm_num [envW], fun x y h => le_refl 1⟩
    (fun ql _ rl _ i _ j _ => by constructor <;> norm_num [envW])
    (by decide) (by decide) (by decide) (fun j => rfl)
    (by norm_num [envW]) (by decide)
    (fun i h => h) (fun a _ b _ h => h)).2 0 (by decide)

/-- **C2**: after the full `Compute` run, for every query point the
reference points summed explicitly at leaf pairs together with those
pruned on its behalf enumerate the reference points exactly once
each, and the `n_pruned` tally plus the number of explicitly summed
points equals the total reference count. -/
theorem C2_accounting (env : Env P) (fuel : ℕ) (qroot rroot : KTree P)
    (res0 : Results) (ofn : ℕ → ℕ) (junk : Results)
    (hker : KerOK env) (hgeom : GeomOK env qroot rroot)
    (hnodup : qroot.pts.Nodup)
    (hrroot : rroot.pts.Perm (List.range env.reference_count))
    (hfuel : qroot.height + rroot.height < fuel)
    (hres0 : ∀ j, res0 j = QResult.Init)
    (hmul : 0 ≤ env.mul_constant)
    (hqlt : ∀ x ∈ qroot.pts, x < env.query_count)
    (hofn_lt : ∀ i, i < env.query_count → ofn i < env.query_count)
    (hofn_inj : ∀ a, a < env.query_count → ∀ b, b < env.query_count →
      ofn a = ofn b → a = b) :
    ∀ q ∈ qroot.pts,
      (((Compute env fuel qroot rroot res0 ofn junk).2 (ofn q)).exact_refs
        ++ ((Compute env fuel qroot rroot res0 ofn junk).2
          (ofn q)).pruned_refs).Perm
        (List.range env.reference_count) ∧
      ((Compute env fuel qroot rroot res0 ofn junk).2 (ofn q)).n_pruned +
        ((Compute env fuel qroot rroot res0 ofn junk).2
          (ofn q)).exact_refs.length = env.reference_count := by
  intro q hq
  obtain ⟨-, hghost, hok⟩ := Compute_final_spec env fuel qroot rroot res0
    ofn junk hker hgeom hnodup hfuel hres0 hmul hqlt hofn_lt hofn_inj q hq
  have hm : ((((Compute env fuel qroot rroot res0 ofn junk).2
        (ofn q)).exact_refs ++
      ((Compute env fuel qroot rroot res0 ofn junk).2
        (ofn q)).pruned_refs : List ℕ) : Multiset ℕ) =
      ↑(List.range env.reference_count) := by
    rw [← Multiset.coe_add, hghost]
    exact Multiset.coe_eq_coe.mpr hrroot
  refine ⟨Multiset.coe_eq_coe.mp hm, ?_⟩
  have hcard := congrArg Multiset.card hm
  simp only [Multiset.coe_card, List.length_append, List.length_range]
    at hcard
  omega

/-- Closed witness for C2 on the concrete instance: constant kernel,
two query points in a two-leaf tree, one reference point. -/
theorem C2_accounting_witness :
    (((Compute envW 3 qnW rnW resW id resW).2 (id 0)).exact_refs ++
      ((Compute envW 3 qnW rnW resW id resW).2 (id 0)).pruned_refs).Perm
      (List.range envW.reference_count) ∧
    ((Compute envW 3 qnW rnW resW id resW).2 (id 0)).n_pruned +
      ((Compute envW 3 qnW rnW resW id resW).2 (id 0)).exact_refs.length =
      envW.reference_count :=
  C2_accounting envW 3 qnW rnW resW id resW
    ⟨fun x => by norm_num [envW], fun x y h => le_refl 1⟩
    (fun ql _ rl _ i _ j _ => by constructor <;> norm_num [envW])
    (by decide) (by decide) (by decide) (fun j => rfl)
    (by norm_num [envW]) (by decide)
    (fun i h => h) (fun a _ b _ h => h) 0 (by decide)

end Kde

